import Mathlib

/-!
Verification of the pointer-token canonicalisation migration
(`scripts/migrate_pointer_tokens.py`).

Strings are modelled as `List Char` (Python `str` is a sequence of code
points).  The Unicode NFKC normalisation performed by
`unicodedata.normalize("NFKC", token)` is an external library function, so
every definition is parametrised by an arbitrary normalisation function
`nfkc : List Char → List Char`; theorems that need nothing about it hold for
every `nfkc`, and concrete evaluations instantiate it with `id`, which is the
behaviour of NFKC on already-normalised (in particular all-ASCII) text.
Python `str.lower` is modelled by the ASCII case mapping `pyLower`, and the
whitespace class of the regex `\s` by the core ASCII whitespace characters.
-/

namespace PointerMigration

/-- Whitespace test modelling the character class `\s` of the scanner regex
(ASCII part; the Unicode-only whitespace code points are irrelevant to the
claims considered here). -/
def isSpace (c : Char) : Bool :=
  c = ' ' ∨ c = '\t' ∨ c = '\n' ∨ c = '\r' ∨ c = '\x0b' ∨ c = '\x0c'

/-- Characters admissible inside a pointer token by the regex
`<@[^>\s]{1,255}>`: anything except `>` and whitespace. -/
def isTokChar (c : Char) : Bool :=
  ¬ (c = '>' ∨ isSpace c = true)

/-- ASCII lower-casing of one character, modelling `str.lower` on the
code points the migration manipulates. -/
def pyLower (c : Char) : Char :=
  if 65 ≤ c.toNat ∧ c.toNat ≤ 90 then Char.ofNat (c.toNat + 32) else c

/-- One left-to-right pass of `str.replace("\r\n", "\n")`: every
non-overlapping occurrence of CRLF is replaced by LF. -/
def crlf : List Char → List Char
  | '\r' :: '\n' :: rest => '\n' :: crlf rest
  | c :: rest => c :: crlf rest
  | [] => []

/-- `interior.split(":", 1)` as used by the canonicaliser: the part before
the first `:` and everything after it, or `none` when no `:` occurs (the
`ValueError` path). -/
def splitFirstColon : List Char → Option (List Char × List Char)
  | [] => none
  | c :: rest =>
    if c = ':' then some ([], rest)
    else (splitFirstColon rest).map fun p => (c :: p.1, p.2)

/-- `normalised.startswith("<@")`. -/
def startsLtAt : List Char → Bool
  | c1 :: c2 :: _ => c1 = '<' ∧ c2 = '@'
  | _ => false

/-- `normalised.endswith(">")` (for a nonempty string this is a test of the
last character). -/
def endsGt (s : List Char) : Bool :=
  s.getLast? = some '>'

/-- `canonicalise_pointer`: NFKC-normalise and collapse CRLF, reject
strings that are too long, lack the `<@ … >` frame or contain no `:` in
their interior, and otherwise lower-case the part before the first `:`. -/
def canonicalise_pointer (nfkc : List Char → List Char) (token : List Char) :
    List Char × Bool :=
  if 256 < (crlf (nfkc token)).length ∨ startsLtAt (crlf (nfkc token)) = false ∨
      endsGt (crlf (nfkc token)) = false then
    (token, false)
  else
    match splitFirstColon (((crlf (nfkc token)).drop 2).dropLast) with
    | none => (token, false)
    | some (pre, rem) =>
      ('<' :: '@' :: (pre.map pyLower ++ ':' :: rem ++ ['>']),
        decide ('<' :: '@' :: (pre.map pyLower ++ ':' :: rem ++ ['>']) ≠ token))

/-- Attempt of the regex `<@[^>\s]{1,255}>` to match at the very start of
`s`; returns the number of interior characters of the match.  The
quantifier is greedy, but since every interior character is by definition
distinct from `>`, backtracking can never produce a shorter match: the
match succeeds exactly when the maximal run of admissible characters after
`<@` has length 1..255 and is followed by `>`. -/
def headMatch (s : List Char) : Option Nat :=
  match s with
  | c1 :: c2 :: t =>
    if c1 = '<' ∧ c2 = '@' then
      let r := (t.takeWhile isTokChar).length
      if 1 ≤ r ∧ r ≤ 255 ∧ t[r]? = some '>' then some r else none
    else none
  | _ => none

/-- Fuelled left-to-right non-overlapping scan of `POINTER_RE.finditer`:
returns the list of (gap before the match, match) pairs together with the
text after the last match.  Any fuel of at least `s.length` is adequate. -/
def findIterF : Nat → List Char → List (List Char × List Char) × List Char
  | _, [] => ([], [])
  | 0, s => ([], s)
  | fuel + 1, c :: rest =>
    match headMatch (c :: rest) with
    | some r =>
      let m := List.take (r + 3) (c :: rest)
      let pr := findIterF fuel (List.drop (r + 3) (c :: rest))
      (([], m) :: pr.1, pr.2)
    | none =>
      let pr := findIterF fuel rest
      match pr.1 with
      | [] => ([], c :: pr.2)
      | (g, m) :: ps => ((c :: g, m) :: ps, pr.2)

/-- The scan of `POINTER_RE.finditer(s)`. -/
def findIter (s : List Char) : List (List Char × List Char) × List Char :=
  findIterF s.length s

/-- `canonicalise_text`: replace every scanner match by its canonical form,
keeping all other text; report whether any match actually changed.  When
the scanner finds nothing the original string is returned unchanged. -/
def canonicalise_text (nfkc : List Char → List Char) (s : List Char) :
    List Char × Bool :=
  let pr := findIter s
  if pr.1.isEmpty then (s, false)
  else
    ((pr.1.map fun gm => gm.1 ++ (canonicalise_pointer nfkc gm.2).1).flatten
        ++ pr.2,
      pr.1.any fun gm => (canonicalise_pointer nfkc gm.2).2)

/-! ## JSON data model and the structural walker -/

/-- JSON-shaped values as produced by `json.loads`.  Objects are
insertion-ordered association lists, as Python dicts are; numbers are
modelled as integers (the migration never inspects them). -/
inductive JsonValue where
  | null : JsonValue
  | bool (b : Bool) : JsonValue
  | num (n : Int) : JsonValue
  | str (s : List Char) : JsonValue
  | arr (items : List JsonValue) : JsonValue
  | obj (fields : List (List Char × JsonValue)) : JsonValue

mutual

/-- Size measure of a JSON value, used as canonical fuel for the walker. -/
def jsize : JsonValue → Nat
  | .null => 1
  | .bool _ => 1
  | .num _ => 1
  | .str _ => 1
  | .arr items => 1 + jsizeL items
  | .obj fields => 1 + jsizeF fields

/-- Size measure of a JSON array body. -/
def jsizeL : List JsonValue → Nat
  | [] => 1
  | v :: rest => 1 + jsize v + jsizeL rest

/-- Size measure of a JSON object body. -/
def jsizeF : List (List Char × JsonValue) → Nat
  | [] => 1
  | (_, v) :: rest => 1 + jsize v + jsizeF rest

end

/-- `k in d` for a Python dict modelled as an association list. -/
def hasKey (fs : List (List Char × JsonValue)) (k : List Char) : Bool :=
  fs.any fun kv => kv.1 = k

/-- `d.get(k)`: the value at the first (for a dict: only) occurrence. -/
def lookupKey (fs : List (List Char × JsonValue)) (k : List Char) :
    Option JsonValue :=
  (fs.find? fun kv => kv.1 = k).map fun kv => kv.2

/-- `d[k] = v`: replace the value at an existing key in place, otherwise
append the new key at the end — exactly the insertion-order behaviour of a
Python dict. -/
def setKey (fs : List (List Char × JsonValue)) (k : List Char) (v : JsonValue) :
    List (List Char × JsonValue) :=
  match fs with
  | [] => [(k, v)]
  | (k', v') :: rest =>
    if k' = k then (k, v) :: rest else (k', v') :: setKey rest k v

/-- The literal dict key `"pointer"`. -/
def ptrKey : List Char := "pointer".toList

/-- The literal dict key `"consent"`. -/
def consentKey : List Char := "consent".toList

/-- The literal dict key `"domain"`. -/
def domainKey : List Char := "domain".toList

mutual

/-- Fuelled form of `canonicalise_json`, the recursive structural walker.
Any fuel of at least `jsize v` is adequate (see `cjF_fuel_irrel`). -/
def cjF (nfkc : List Char → List Char) (dc : List Char) :
    Nat → JsonValue → JsonValue × Bool
  | 0, v => (v, false)
  | fuel + 1, v =>
    match v with
    | .obj fields =>
      let pr := pfF nfkc dc fuel fields fields false
      match lookupKey pr.1 domainKey with
      | some (.str d) =>
        let lowered := d.map pyLower
        if lowered ≠ d then (.obj (setKey pr.1 domainKey (.str lowered)), true)
        else (.obj pr.1, pr.2)
      | _ => (.obj pr.1, pr.2)
    | .arr items =>
      let pr := piF nfkc dc fuel items
      (.arr pr.1, pr.2)
    | .str s =>
      let pr := canonicalise_text nfkc s
      (.str pr.1, pr.2)
    | _ => (v, false)

/-- The loop `for idx, item in enumerate(value)` over a JSON array:
elements whose recursive walk reports a change are replaced in place. -/
def piF (nfkc : List Char → List Char) (dc : List Char) :
    Nat → List JsonValue → List JsonValue × Bool
  | 0, items => (items, false)
  | _ + 1, [] => ([], false)
  | fuel + 1, item :: rest =>
    let pr := cjF nfkc dc fuel item
    let prs := piF nfkc dc fuel rest
    ((if pr.2 then pr.1 else item) :: prs.1, pr.2 || prs.2)

/-- The loop `for key, item in list(value.items())` over a JSON object:
the first argument list is the snapshot being iterated, the second the
current state of the dict, which the loop body mutates.  String values go
through the exact-token tier first (with consent injection for the key
`"pointer"` when no `consent` key is present) and fall back to the
substring scan; other values recurse. -/
def pfF (nfkc : List Char → List Char) (dc : List Char) :
    Nat → List (List Char × JsonValue) → List (List Char × JsonValue) →
    Bool → List (List Char × JsonValue) × Bool
  | 0, _, cur, ch => (cur, ch)
  | _ + 1, [], cur, ch => (cur, ch)
  | fuel + 1, (key, item) :: rest, cur, ch =>
    match item with
    | .str s =>
      let up := canonicalise_pointer nfkc s
      if up.2 then
        let cur1 := setKey cur key (.str up.1)
        let cur2 :=
          if key = ptrKey ∧ hasKey cur1 consentKey = false then
            setKey cur1 consentKey (.str dc)
          else cur1
        pfF nfkc dc fuel rest cur2 true
      else
        let ct := canonicalise_text nfkc s
        if ct.2 then pfF nfkc dc fuel rest (setKey cur key (.str ct.1)) true
        else pfF nfkc dc fuel rest cur ch
    | _ =>
      let pr := cjF nfkc dc fuel item
      if pr.2 then pfF nfkc dc fuel rest (setKey cur key pr.1) true
      else pfF nfkc dc fuel rest cur ch

end

/-- `canonicalise_json`: the structural walker at its canonical fuel. -/
def canonicalise_json (nfkc : List Char → List Char) (dc : List Char)
    (v : JsonValue) : JsonValue × Bool :=
  cjF nfkc dc (jsize v) v

/-! ## JSON text round trip (standard library `json`, modelled) -/

/-- Modelled from the spec: the whitespace skipped between JSON tokens by
`json.loads` (space, tab, newline, carriage return). -/
def skipWs (s : List Char) : List Char :=
  s.dropWhile fun c => c = ' ' ∨ c = '\t' ∨ c = '\n' ∨ c = '\r'

/-- Modelled from the spec: body of a JSON string literal after the opening
quote; returns the decoded content and the input after the closing quote.
The `\uXXXX` escape is not modelled (such documents fall back to the
plain-text scan). -/
def parseStrBody : List Char → Option (List Char × List Char)
  | [] => none
  | '"' :: rest => some ([], rest)
  | '\\' :: e :: rest =>
    let dec : Option Char :=
      if e = '"' then some '"'
      else if e = '\\' then some '\\'
      else if e = '/' then some '/'
      else if e = 'b' then some '\x08'
      else if e = 'f' then some '\x0c'
      else if e = 'n' then some '\n'
      else if e = 'r' then some '\r'
      else if e = 't' then some '\t'
      else none
    match dec with
    | none => none
    | some d => (parseStrBody rest).map fun p => (d :: p.1, p.2)
  | c :: rest =>
    if c.toNat < 32 then none
    else (parseStrBody rest).map fun p => (c :: p.1, p.2)

/-- Modelled from the spec: a JSON integer literal (an optional minus sign
and digits without a leading zero).  Fractions and exponents are not
modelled: documents containing them count as unparseable and take the
plain-text fallback. -/
def parseIntLit (s : List Char) : Option (Int × List Char) :=
  let core : List Char → Option (Nat × List Char) := fun t =>
    let ds := t.takeWhile fun c => c.isDigit
    if ds.isEmpty then none
    else if 2 ≤ ds.length ∧ ds.head? = some '0' then none
    else
      let rest := t.drop ds.length
      match rest with
      | '.' :: _ => none
      | 'e' :: _ => none
      | 'E' :: _ => none
      | _ => some (ds.foldl (fun acc c => 10 * acc + (c.toNat - 48)) 0, rest)
  match s with
  | '-' :: t => (core t).map fun p => (-(p.1 : Int), p.2)
  | t => (core t).map fun p => ((p.1 : Int), p.2)

mutual

/-- Modelled from the spec: `json.loads`, recursive descent over one JSON
value.  Any fuel of at least `s.length + 1` is adequate. -/
def parseVal : Nat → List Char → Option (JsonValue × List Char)
  | 0, _ => none
  | fuel + 1, s =>
    match skipWs s with
    | '\x7b' :: rest =>
      match skipWs rest with
      | '\x7d' :: rest2 => some (.obj [], rest2)
      | _ => parseMembers fuel rest []
    | '[' :: rest =>
      match skipWs rest with
      | ']' :: rest2 => some (.arr [], rest2)
      | _ => parseElems fuel rest []
    | '"' :: rest => (parseStrBody rest).map fun p => (.str p.1, p.2)
    | 't' :: 'r' :: 'u' :: 'e' :: rest => some (.bool true, rest)
    | 'f' :: 'a' :: 'l' :: 's' :: 'e' :: rest => some (.bool false, rest)
    | 'n' :: 'u' :: 'l' :: 'l' :: rest => some (.null, rest)
    | t => (parseIntLit t).map fun p => (.num p.1, p.2)

/-- Modelled from the spec: the members of a JSON object after `{`.
Duplicate keys behave like Python dict insertion: the last value wins but
the first occurrence fixes the position. -/
def parseMembers : Nat → List Char → List (List Char × JsonValue) →
    Option (JsonValue × List Char)
  | 0, _, _ => none
  | fuel + 1, s, acc =>
    match skipWs s with
    | '"' :: rest =>
      match parseStrBody rest with
      | none => none
      | some (k, rest2) =>
        match skipWs rest2 with
        | ':' :: rest3 =>
          match parseVal fuel rest3 with
          | none => none
          | some (v, rest4) =>
            match skipWs rest4 with
            | ',' :: rest5 => parseMembers fuel rest5 (setKey acc k v)
            | '\x7d' :: rest5 => some (.obj (setKey acc k v), rest5)
            | _ => none
        | _ => none
    | _ => none

/-- Modelled from the spec: the elements of a JSON array after `[`. -/
def parseElems : Nat → List Char → List JsonValue →
    Option (JsonValue × List Char)
  | 0, _, _ => none
  | fuel + 1, s, acc =>
    match parseVal fuel s with
    | none => none
    | some (v, rest) =>
      match skipWs rest with
      | ',' :: rest2 => parseElems fuel rest2 (acc ++ [v])
      | ']' :: rest2 => some (.arr (acc ++ [v]), rest2)
      | _ => none

end

/-- Modelled from the spec: `json.loads(text)` — parse one JSON document,
requiring that only whitespace follows it. -/
def jsonLoads (s : List Char) : Option JsonValue :=
  match parseVal (s.length + 1) s with
  | some (v, rest) => if skipWs rest = [] then some v else none
  | none => none

/-- Modelled from the spec: string escaping of `json.dumps` with
`ensure_ascii=False` — the two mandatory escapes, the short control-code
escapes, `\u00XX` for the remaining control codes, and every other
character (non-ASCII included) written as itself. -/
def escapeStr : List Char → List Char
  | [] => []
  | c :: rest =>
    let hexDig : Nat → Char := fun n =>
      if n < 10 then Char.ofNat (48 + n) else Char.ofNat (87 + n)
    let enc : List Char :=
      if c = '"' then ['\\', '"']
      else if c = '\\' then ['\\', '\\']
      else if c = '\n' then ['\\', 'n']
      else if c = '\r' then ['\\', 'r']
      else if c = '\t' then ['\\', 't']
      else if c = '\x08' then ['\\', 'b']
      else if c = '\x0c' then ['\\', 'f']
      else if c.toNat < 32 then
        ['\\', 'u', '0', '0', hexDig (c.toNat / 16), hexDig (c.toNat % 16)]
      else [c]
    enc ++ escapeStr rest

/-- Code-point comparison of strings, the order `sort_keys=True` uses. -/
def lexLe : List Char → List Char → Bool
  | [], _ => true
  | _ :: _, [] => false
  | x :: xs, y :: ys =>
    if x.toNat < y.toNat then true
    else if y.toNat < x.toNat then false
    else lexLe xs ys

/-- Insert one field into a key-sorted field list, keeping earlier equal
keys first. -/
def insortField (kv : List Char × JsonValue) :
    List (List Char × JsonValue) → List (List Char × JsonValue)
  | [] => [kv]
  | kv' :: rest =>
    if lexLe kv'.1 kv.1 then kv' :: insortField kv rest
    else kv :: kv' :: rest

/-- Sort an object's fields by key, as `sort_keys=True` does. -/
def sortFields (fs : List (List Char × JsonValue)) :
    List (List Char × JsonValue) :=
  fs.foldr insortField []

/-- Join pre-rendered pieces with a separator. -/
def joinSep (sep : List Char) : List (List Char) → List Char
  | [] => []
  | [x] => x
  | x :: rest => x ++ sep ++ joinSep sep rest

/-- Modelled from the spec: fuelled body of
`json.dumps(v, ensure_ascii=False, sort_keys=True)` with the default
separators `", "` and `": "` — the deterministic re-serialisation with
stable key order, fixed separators and non-ASCII preserved. -/
def dumpsVF : Nat → JsonValue → List Char
  | 0, _ => []
  | fuel + 1, v =>
    match v with
    | .null => "null".toList
    | .bool true => "true".toList
    | .bool false => "false".toList
    | .num n => (toString n).toList
    | .str s => '"' :: (escapeStr s ++ ['"'])
    | .arr [] => "[]".toList
    | .arr items =>
      '[' :: (joinSep ", ".toList (items.map (dumpsVF fuel)) ++ [']'])
    | .obj [] => ['\x7b', '\x7d']
    | .obj fields =>
      '\x7b' ::
        (joinSep ", ".toList
          ((sortFields fields).map fun kv =>
            '"' :: (escapeStr kv.1 ++ '"' :: ':' :: ' ' :: dumpsVF fuel kv.2))
          ++ ['\x7d'])

/-- Modelled from the spec: `json.dumps(v, ensure_ascii=False,
sort_keys=True)`. -/
def jsonDumps (v : JsonValue) : List Char :=
  dumpsVF (jsize v) v

/-! ## Record processing and the two store adapters -/

/-- `process_json_text`: parse the text as JSON and walk it structurally,
re-serialising only when the walker reports a change; unparseable text is
scanned as plain text instead. -/
def process_json_text (nfkc : List Char → List Char) (dc : List Char)
    (text : List Char) : List Char × Bool :=
  match jsonLoads text with
  | none => canonicalise_text nfkc text
  | some payload =>
    let pr := canonicalise_json nfkc dc payload
    if pr.2 then (jsonDumps pr.1, true) else (text, false)

/-- One row of the `memory_records` table: the four nullable text columns
and the `updated` timestamp column. -/
structure MemoryRow where
  id : Nat
  value : Option (List Char)
  extra : Option (List Char)
  links : Option (List Char)
  source : Option (List Char)
  updated : List Char

/-- Processing of one stored column: `some` new text exactly when the
column is non-NULL and `process_json_text` reports a change. -/
def processColumn (nfkc : List Char → List Char) (dc : List Char) :
    Option (List Char) → Option (List Char)
  | none => none
  | some t =>
    let pr := process_json_text nfkc dc t
    if pr.2 then some pr.1 else none

/-- The `updated_fields` computed for one row, in column order
`value, extra, links, source`. -/
def rowNewTexts (nfkc : List Char → List Char) (dc : List Char)
    (r : MemoryRow) : List (Option (List Char)) :=
  [processColumn nfkc dc r.value, processColumn nfkc dc r.extra,
    processColumn nfkc dc r.links, processColumn nfkc dc r.source]

/-- A row joins the update list exactly when some column changed. -/
def rowNeedsUpdate (nfkc : List Char → List Char) (dc : List Char)
    (r : MemoryRow) : Bool :=
  (rowNewTexts nfkc dc r).any Option.isSome

/-- The `UPDATE` statement for one row: changed columns receive their new
text, unchanged columns keep their stored value, and `updated` is set to
the current timestamp. -/
def applyRow (nfkc : List Char → List Char) (dc : List Char)
    (now : List Char) (r : MemoryRow) : MemoryRow :=
  let merge : Option (List Char) → Option (List Char) := fun raw =>
    match processColumn nfkc dc raw with
    | some nt => some nt
    | none => raw
  { id := r.id, value := merge r.value, extra := merge r.extra,
    links := merge r.links, source := merge r.source, updated := now }

/-- `update_memory_records` over one SQLite store, modelled as `none` when
the `memory_records` table is absent and as the row list otherwise:
compute the rows needing update, return their count, and rewrite them only
when at least one exists and dry-run is off. -/
def update_memory_records (nfkc : List Char → List Char) (dc : List Char)
    (store : Option (List MemoryRow)) (dry : Bool) (now : List Char) :
    Nat × Option (List MemoryRow) :=
  match store with
  | none => (0, none)
  | some rows =>
    let updates := rows.filter (rowNeedsUpdate nfkc dc)
    if updates.isEmpty || dry then (updates.length, some rows)
    else
      (updates.length,
        some (rows.map fun r =>
          if rowNeedsUpdate nfkc dc r then applyRow nfkc dc now r else r))

/-- The write expression of the file adapter:
`updated + ("\n" if not updated.endswith("\n") else "")`. -/
def writeText (u : List Char) : List Char :=
  u ++ (if u.getLast? = some '\n' then [] else ['\n'])

/-- `canonicalise_json_files` over a list of (path, readable content)
pairs, `none` marking a file whose read raises.  Files are processed in
order; a read failure propagates (no surrounding handler exists in the
code), leaving the remaining files untouched and losing the count.
Returns the resulting file states and either the failing path or the count
of changed files. -/
def canonicalise_json_files (nfkc : List Char → List Char) (dc : List Char) :
    List (List Char × Option (List Char)) → Bool →
    List (List Char × Option (List Char)) × Except (List Char) Nat
  | [], _ => ([], .ok 0)
  | (name, none) :: rest, _ => ((name, none) :: rest, .error name)
  | (name, some content) :: rest, dry =>
    let pr := process_json_text nfkc dc content
    let newC := if pr.2 && !dry then writeText pr.1 else content
    let r2 := canonicalise_json_files nfkc dc rest dry
    ((name, some newC) :: r2.1, r2.2.map fun n => if pr.2 then n + 1 else n)

/-! ## Derived notions used to state the claims -/

/-- Concatenation of a (gap, match) decomposition of a scanned string. -/
def flattenPairs (ps : List (List Char × List Char)) : List Char :=
  (ps.map fun gm => gm.1 ++ gm.2).flatten

/-- Shape of a scanner match: `<@`, one to 255 characters that are neither
`>` nor whitespace, then `>`. -/
def matchShapeB (m : List Char) : Bool :=
  match m with
  | c1 :: c2 :: t =>
    decide (c1 = '<') && decide (c2 = '@') && t.dropLast.all isTokChar &&
      decide (1 ≤ t.dropLast.length) && decide (t.dropLast.length ≤ 255) &&
      decide (t.getLast? = some '>')
  | _ => false

/-- Two characters that the scanner regex cannot tell apart: they agree on
being `<`, `@`, `>` and on whitespace-ness.  Lower-casing a token prefix
only moves characters within these classes, so a rescan of canonicalised
text sees the same match structure. -/
def CharEq (c d : Char) : Prop :=
  (c = '<' ↔ d = '<') ∧ (c = '@' ↔ d = '@') ∧ (c = '>' ↔ d = '>') ∧
    isSpace c = isSpace d

/-- Whether a value is a string changed by the exact-match token tier. -/
def pointerTierFlag (nfkc : List Char → List Char) : JsonValue → Bool
  | .str s => (canonicalise_pointer nfkc s).2
  | _ => false

/-- The consent-injection condition of the walker: some field is keyed
`"pointer"` and holds a string the exact-match tier changes. -/
def injectionFires (nfkc : List Char → List Char)
    (fields : List (List Char × JsonValue)) : Bool :=
  fields.any fun kv => decide (kv.1 = ptrKey) && pointerTierFlag nfkc kv.2

/-- The value an object field holds after its own loop iteration: strings
go through the exact-match tier with substring-scan fallback, other values
through the recursive walk. -/
def tierValue (nfkc : List Char → List Char) (dc : List Char) :
    JsonValue → JsonValue
  | .str s =>
    let up := canonicalise_pointer nfkc s
    if up.2 then .str up.1 else .str (canonicalise_text nfkc s).1
  | v => (canonicalise_json nfkc dc v).1

/-! ## Character-level lemmas -/

theorem char_eq_of_toNat {c d : Char} (h : c.toNat = d.toNat) : c = d :=
  Char.eq_of_val_eq (UInt32.ext h)

theorem pyLower_toNat_of_upper (c : Char) (h : 65 ≤ c.toNat ∧ c.toNat ≤ 90) :
    (pyLower c).toNat = c.toNat + 32 := by
  unfold pyLower
  rw [if_pos h]
  unfold Char.ofNat
  rw [dif_pos (Or.inl (by omega))]
  simp [Char.ofNatAux, Char.toNat, UInt32.ofNat', UInt32.toNat,
    BitVec.toNat_ofNatLt]

theorem pyLower_of_not_upper (c : Char) (h : ¬ (65 ≤ c.toNat ∧ c.toNat ≤ 90)) :
    pyLower c = c := by
  unfold pyLower
  rw [if_neg h]

theorem pyLower_idem (c : Char) : pyLower (pyLower c) = pyLower c := by
  by_cases h : 65 ≤ c.toNat ∧ c.toNat ≤ 90
  · have h1 := pyLower_toNat_of_upper c h
    exact pyLower_of_not_upper _ (by omega)
  · rw [pyLower_of_not_upper c h, pyLower_of_not_upper c h]

theorem pyLower_eq_iff (c x : Char) (h1 : ¬ (65 ≤ x.toNat ∧ x.toNat ≤ 90))
    (h2 : ¬ (97 ≤ x.toNat ∧ x.toNat ≤ 122)) : pyLower c = x ↔ c = x := by
  constructor
  · intro h
    by_cases hc : 65 ≤ c.toNat ∧ c.toNat ≤ 90
    · have h3 := pyLower_toNat_of_upper c hc
      rw [h] at h3
      omega
    · rwa [pyLower_of_not_upper c hc] at h
  · intro h
    subst h
    exact pyLower_of_not_upper _ h1

theorem char_eq_iff_toNat (c x : Char) : c = x ↔ c.toNat = x.toNat :=
  ⟨fun h => h ▸ rfl, char_eq_of_toNat⟩

theorem isSpace_eq_decide (c : Char) :
    isSpace c = decide (c.toNat = 32 ∨ c.toNat = 9 ∨ c.toNat = 10 ∨
      c.toNat = 13 ∨ c.toNat = 11 ∨ c.toNat = 12) := by
  unfold isSpace
  rw [decide_eq_decide, char_eq_iff_toNat c ' ', char_eq_iff_toNat c '\t',
    char_eq_iff_toNat c '\n', char_eq_iff_toNat c '\r',
    char_eq_iff_toNat c '\x0b', char_eq_iff_toNat c '\x0c']
  exact Iff.rfl

theorem isSpace_pyLower (c : Char) : isSpace (pyLower c) = isSpace c := by
  by_cases h : 65 ≤ c.toNat ∧ c.toNat ≤ 90
  · have h1 := pyLower_toNat_of_upper c h
    rw [isSpace_eq_decide, isSpace_eq_decide, decide_eq_decide]
    omega
  · rw [pyLower_of_not_upper c h]

theorem charEq_refl (c : Char) : CharEq c c :=
  ⟨Iff.rfl, Iff.rfl, Iff.rfl, rfl⟩

theorem charEq_pyLower (c : Char) : CharEq c (pyLower c) := by
  refine ⟨?_, ?_, ?_, (isSpace_pyLower c).symm⟩ <;>
    exact (pyLower_eq_iff c _ (by decide) (by decide)).symm

/-! ## Lemmas about `crlf` -/

theorem crlf_cons2 (c c2 : Char) (rest : List Char) :
    crlf (c :: c2 :: rest) =
      if c = '\r' ∧ c2 = '\n' then '\n' :: crlf rest
      else c :: crlf (c2 :: rest) := by
  by_cases h : c = '\r' ∧ c2 = '\n'
  · obtain ⟨rfl, rfl⟩ := h
    rw [if_pos ⟨rfl, rfl⟩, crlf.eq_1]
  · rw [if_neg h]
    refine crlf.eq_2 c (c2 :: rest) ?_
    intro rest1 hc hr
    rw [List.cons.injEq] at hr
    exact h ⟨hc, hr.1⟩

theorem crlf_of_no_cr (s : List Char) (h : '\r' ∉ s) : crlf s = s := by
  induction s with
  | nil => exact crlf.eq_3
  | cons c rest ih =>
    cases rest with
    | nil =>
      rw [crlf.eq_2 c [] (by intro r hc hr; cases hr), crlf.eq_3]
    | cons c2 rest2 =>
      rw [crlf_cons2, if_neg, ih fun hm => h (List.mem_cons_of_mem _ hm)]
      rintro ⟨rfl, -⟩
      exact h (List.mem_cons_self _ _)

/-! ## Lemmas about `splitFirstColon` -/

theorem splitFC_of (p r : List Char) (hp : ':' ∉ p) :
    splitFirstColon (p ++ ':' :: r) = some (p, r) := by
  induction p with
  | nil => simp [splitFirstColon]
  | cons c cs ih =>
    have hc : ¬ c = ':' := fun h => hp (h ▸ List.mem_cons_self _ _)
    have hcs : ':' ∉ cs := fun h => hp (List.mem_cons_of_mem _ h)
    simp [splitFirstColon, hc, ih hcs]

theorem splitFC_none (i : List Char) (h : ':' ∉ i) : splitFirstColon i = none := by
  induction i with
  | nil => rfl
  | cons c cs ih =>
    have hc : ¬ c = ':' := fun hx => h (hx ▸ List.mem_cons_self _ _)
    simp [splitFirstColon, hc, ih fun hm => h (List.mem_cons_of_mem _ hm)]

theorem splitFC_some (i p r : List Char) (h : splitFirstColon i = some (p, r)) :
    i = p ++ ':' :: r ∧ ':' ∉ p := by
  induction i generalizing p r with
  | nil => simp [splitFirstColon] at h
  | cons c cs ih =>
    by_cases hc : c = ':'
    · subst hc
      simp [splitFirstColon] at h
      obtain ⟨rfl, rfl⟩ := h
      simp
    · rw [splitFirstColon, if_neg hc, Option.map_eq_some'] at h
      obtain ⟨⟨a, b⟩, hab, heq⟩ := h
      rw [Prod.mk.injEq] at heq
      obtain ⟨rfl, rfl⟩ := heq
      obtain ⟨rfl, hnp⟩ := ih a b hab
      refine ⟨by simp, ?_⟩
      intro hm
      rcases List.mem_cons.mp hm with h1 | h1
      · exact hc h1.symm
      · exact hnp h1

/-! ## Structure lemmas for `canonicalise_pointer` -/

theorem startsLtAt_iff (s : List Char) :
    startsLtAt s = true ↔ ∃ t, s = '<' :: '@' :: t := by
  cases s with
  | nil => simp [startsLtAt]
  | cons c1 rest =>
    cases rest with
    | nil => simp [startsLtAt]
    | cons c2 t =>
      simp only [startsLtAt, decide_eq_true_eq]
      constructor
      · rintro ⟨rfl, rfl⟩
        exact ⟨t, rfl⟩
      · rintro ⟨t', ht⟩
        cases ht
        exact ⟨rfl, rfl⟩

theorem endsGt_decomp (s : List Char) (h : endsGt s = true) :
    ∃ t0, s = t0 ++ ['>'] := by
  unfold endsGt at h
  rw [decide_eq_true_eq] at h
  cases hs : s with
  | nil => rw [hs] at h; simp at h
  | cons c rest =>
    refine ⟨s.dropLast, ?_⟩
    have hne : s ≠ [] := by rw [hs]; simp
    have h2 := List.dropLast_append_getLast hne
    rw [List.getLast?_eq_getLast s hne] at h
    rw [Option.some_inj] at h
    rw [← hs, ← h, h2]

theorem shape_concat (p r : List Char) :
    '<' :: '@' :: (p ++ ':' :: (r ++ ['>'])) =
      ('<' :: '@' :: (p ++ ':' :: r)) ++ ['>'] := by
  simp

theorem cp_invalid (nfkc : List Char → List Char) (T : List Char)
    (h : 256 < (crlf (nfkc T)).length ∨ startsLtAt (crlf (nfkc T)) = false ∨
      endsGt (crlf (nfkc T)) = false ∨
      ':' ∉ ((crlf (nfkc T)).drop 2).dropLast) :
    canonicalise_pointer nfkc T = (T, false) := by
  unfold canonicalise_pointer
  by_cases hg : 256 < (crlf (nfkc T)).length ∨ startsLtAt (crlf (nfkc T)) = false ∨
      endsGt (crlf (nfkc T)) = false
  · rw [if_pos hg]
  · rw [if_neg hg]
    have hcolon : ':' ∉ ((crlf (nfkc T)).drop 2).dropLast := by tauto
    rw [splitFC_none _ hcolon]

theorem cp_valid (nfkc : List Char → List Char) (T p r : List Char)
    (hs : crlf (nfkc T) = '<' :: '@' :: (p ++ ':' :: (r ++ ['>'])))
    (hp : ':' ∉ p) (hl : (crlf (nfkc T)).length ≤ 256) :
    canonicalise_pointer nfkc T =
      ('<' :: '@' :: (p.map pyLower ++ ':' :: (r ++ ['>'])),
        decide ('<' :: '@' :: (p.map pyLower ++ ':' :: (r ++ ['>'])) ≠ T)) := by
  unfold canonicalise_pointer
  rw [if_neg]
  · have hi : (((crlf (nfkc T)).drop 2).dropLast) = p ++ ':' :: r := by
      rw [hs]
      show (p ++ ':' :: (r ++ ['>'])).dropLast = p ++ ':' :: r
      rw [show p ++ ':' :: (r ++ ['>']) = (p ++ ':' :: r) ++ ['>'] by simp]
      exact List.dropLast_concat
    rw [hi, splitFC_of p r hp]
    simp
  · push_neg
    refine ⟨by omega, ?_, ?_⟩
    · simp only [ne_eq, Bool.not_eq_false]
      rw [startsLtAt_iff]
      exact ⟨_, hs⟩
    · simp only [ne_eq, Bool.not_eq_false]
      unfold endsGt
      rw [hs, shape_concat, decide_eq_true_eq]
      exact List.getLast?_concat _

theorem cp_flag (nfkc : List Char → List Char) (T : List Char) :
    (canonicalise_pointer nfkc T).2 =
      decide ((canonicalise_pointer nfkc T).1 ≠ T) := by
  unfold canonicalise_pointer
  split
  · simp
  · split
    · simp
    · rfl

theorem cp_output_of_flag_false (nfkc : List Char → List Char) (T : List Char)
    (h : (canonicalise_pointer nfkc T).2 = false) :
    (canonicalise_pointer nfkc T).1 = T := by
  rw [cp_flag] at h
  simpa using h

theorem cp_cases (nfkc : List Char → List Char) (T : List Char) :
    canonicalise_pointer nfkc T = (T, false) ∨
      ∃ p r, crlf (nfkc T) = '<' :: '@' :: (p ++ ':' :: (r ++ ['>'])) ∧
        ':' ∉ p ∧ (crlf (nfkc T)).length ≤ 256 := by
  by_cases hg : 256 < (crlf (nfkc T)).length ∨
      startsLtAt (crlf (nfkc T)) = false ∨ endsGt (crlf (nfkc T)) = false
  · left
    unfold canonicalise_pointer
    rw [if_pos hg]
  · push_neg at hg
    obtain ⟨h1, h2, h3⟩ := hg
    rw [ne_eq, Bool.not_eq_false] at h2 h3
    obtain ⟨t, ht⟩ := (startsLtAt_iff _).mp h2
    obtain ⟨t0, ht0⟩ := endsGt_decomp _ h3
    have htne : t ≠ [] := by
      intro h
      rw [h] at ht
      rw [ht] at ht0
      rcases t0 with _ | ⟨x, _ | ⟨y, t0'⟩⟩ <;> simp at ht0
    obtain ⟨i, hlast, hti⟩ : ∃ i last, t = i ++ [last] := by
      refine ⟨t.dropLast, t.getLast htne, ?_⟩
      exact (List.dropLast_append_getLast htne).symm
    have hgt : hlast = '>' := by
      rw [hti] at ht
      rw [ht] at ht0
      have : ('<' :: '@' :: i) ++ [hlast] = t0 ++ ['>'] := by
        simpa using ht0
      have h4 := List.append_inj' this (by rfl)
      simpa using h4.2
    subst hgt
    cases hsp : splitFirstColon (((crlf (nfkc T)).drop 2).dropLast) with
    | none =>
      left
      unfold canonicalise_pointer
      rw [if_neg (by push_neg; exact ⟨h1, by simp [h2], by simp [h3]⟩), hsp]
    | some pr =>
      obtain ⟨p, r⟩ := pr
      right
      have hi : ((crlf (nfkc T)).drop 2).dropLast = i := by
        rw [ht, hti]
        show (i ++ ['>']).dropLast = i
        exact List.dropLast_concat
      rw [hi] at hsp
      obtain ⟨hieq, hp⟩ := splitFC_some _ _ _ hsp
      refine ⟨p, r, ?_, hp, by omega⟩
      rw [ht, hti, hieq]
      simp

/-! ## Lemmas about the scanner -/

theorem flattenPairs_nil : flattenPairs [] = [] := rfl

theorem flattenPairs_cons (g m : List Char)
    (ps : List (List Char × List Char)) :
    flattenPairs ((g, m) :: ps) = (g ++ m) ++ flattenPairs ps := by
  unfold flattenPairs
  simp

theorem findIterF_succ_cons (fuel : Nat) (c : Char) (rest : List Char) :
    findIterF (fuel + 1) (c :: rest) =
      match headMatch (c :: rest) with
      | some r =>
        (([], List.take (r + 3) (c :: rest)) ::
            (findIterF fuel (List.drop (r + 3) (c :: rest))).1,
          (findIterF fuel (List.drop (r + 3) (c :: rest))).2)
      | none =>
        match (findIterF fuel rest).1 with
        | [] => ([], c :: (findIterF fuel rest).2)
        | (g, m) :: ps => ((c :: g, m) :: ps, (findIterF fuel rest).2) := rfl

theorem findIterF_reconstruct :
    ∀ fuel s, s.length ≤ fuel →
      flattenPairs (findIterF fuel s).1 ++ (findIterF fuel s).2 = s := by
  intro fuel
  induction fuel with
  | zero =>
    intro s hs
    have hnil : s = [] := List.length_eq_zero.mp (by omega)
    subst hnil
    rfl
  | succ fuel ih =>
    intro s hs
    cases s with
    | nil => rfl
    | cons c rest =>
      rw [findIterF_succ_cons]
      cases hm : headMatch (c :: rest) with
      | some r =>
        have hd : (List.drop (r + 3) (c :: rest)).length ≤ fuel := by
          rw [List.length_drop]
          simp only [List.length_cons] at hs ⊢
          omega
        have hr := ih _ hd
        simp only [flattenPairs_cons, List.nil_append]
        rw [List.append_assoc, hr]
        exact List.take_append_drop _ _
      | none =>
        have hr := ih rest (by simp only [List.length_cons] at hs; omega)
        cases hp : (findIterF fuel rest).1 with
        | nil =>
          simp only [flattenPairs_nil, List.nil_append]
          rw [hp, flattenPairs_nil, List.nil_append] at hr
          rw [hr]
        | cons gm ps =>
          obtain ⟨g, m⟩ := gm
          rw [hp, flattenPairs_cons] at hr
          simp only [flattenPairs_cons, List.cons_append, List.append_assoc]
          simp only [List.append_assoc] at hr
          rw [hr]

theorem takeWhile_eq_take_length (p : Char → Bool) (l : List Char) :
    l.takeWhile p = l.take (l.takeWhile p).length := by
  induction l with
  | nil => rfl
  | cons c rest ih =>
    by_cases h : p c
    · simp only [List.takeWhile_cons, h, if_true, List.length_cons,
        List.take_succ_cons]
      rw [← ih]
    · simp [List.takeWhile_cons, h]

theorem takeWhile_stop (p : Char → Bool) (l : List Char)
    (h : (l.takeWhile p).length < l.length) :
    ∃ c, l[(l.takeWhile p).length]? = some c ∧ p c = false := by
  induction l with
  | nil => simp at h
  | cons c rest ih =>
    by_cases hc : p c
    · simp only [List.takeWhile_cons, hc, if_true, List.length_cons] at h ⊢
      simp only [List.getElem?_cons_succ]
      exact ih (by omega)
    · refine ⟨c, ?_, by simpa using hc⟩
      simp [List.takeWhile_cons, hc]

theorem all_takeWhile (p : Char → Bool) (l : List Char) :
    (l.takeWhile p).all p = true := by
  rw [List.all_eq_true]
  intro x hx
  exact List.mem_takeWhile_imp hx

theorem takeWhile_length_le_of_false (p : Char → Bool) (l1 l2 : List Char)
    (x : Char) (hx : p x = false) :
    (List.takeWhile p (l1 ++ x :: l2)).length ≤ l1.length := by
  induction l1 with
  | nil => simp [List.takeWhile_cons, hx]
  | cons c cs ih =>
    by_cases hc : p c
    · simp only [List.cons_append, List.takeWhile_cons, hc, if_true,
        List.length_cons]
      omega
    · simp [List.takeWhile_cons, hc]

theorem takeWhile_append_of_all (p : Char → Bool) (i l2 : List Char) (y : Char)
    (hall : ∀ c ∈ i, p c = true) (hy : p y = false) :
    List.takeWhile p (i ++ y :: l2) = i := by
  induction i with
  | nil => simp [List.takeWhile_cons, hy]
  | cons c cs ih =>
    have hc : p c = true := hall c (List.mem_cons_self _ _)
    simp only [List.cons_append, List.takeWhile_cons, hc, if_true]
    rw [ih fun d hd => hall d (List.mem_cons_of_mem _ hd)]

theorem headMatch_cons2 (c1 c2 : Char) (t : List Char) :
    headMatch (c1 :: c2 :: t) =
      if c1 = '<' ∧ c2 = '@' then
        if 1 ≤ (t.takeWhile isTokChar).length ∧
            (t.takeWhile isTokChar).length ≤ 255 ∧
            t[(t.takeWhile isTokChar).length]? = some '>' then
          some (t.takeWhile isTokChar).length
        else none
      else none := rfl

theorem headMatch_some (s : List Char) (r : Nat) (h : headMatch s = some r) :
    ∃ t, s = '<' :: '@' :: t ∧ r = (t.takeWhile isTokChar).length ∧
      1 ≤ r ∧ r ≤ 255 ∧ t[r]? = some '>' := by
  cases s with
  | nil => simp [headMatch] at h
  | cons c1 rest =>
    cases rest with
    | nil => simp [headMatch] at h
    | cons c2 t =>
      rw [headMatch_cons2] at h
      by_cases h1 : c1 = '<' ∧ c2 = '@'
      · rw [if_pos h1] at h
        by_cases h2 : 1 ≤ (t.takeWhile isTokChar).length ∧
            (t.takeWhile isTokChar).length ≤ 255 ∧
            t[(t.takeWhile isTokChar).length]? = some '>'
        · rw [if_pos h2] at h
          obtain ⟨rfl, rfl⟩ := h1
          rw [Option.some_inj] at h
          exact ⟨t, rfl, h.symm, h ▸ h2.1, h ▸ h2.2.1, h ▸ h2.2.2⟩
        · rw [if_neg h2] at h
          cases h
      · rw [if_neg h1] at h
        cases h

theorem headMatch_none_of_not_lt (c : Char) (rest : List Char)
    (hc : ¬ c = '<') : headMatch (c :: rest) = none := by
  cases rest with
  | nil => rfl
  | cons c2 t =>
    rw [headMatch_cons2]
    rw [if_neg fun hx => hc hx.1]

theorem matchShapeB_of_headMatch (c : Char) (rest : List Char) (r : Nat)
    (h : headMatch (c :: rest) = some r) :
    matchShapeB (List.take (r + 3) (c :: rest)) = true := by
  obtain ⟨t, hs, hrdef, h1, h2, h3⟩ := headMatch_some _ _ h
  rw [List.cons.injEq] at hs
  obtain ⟨rfl, hs⟩ := hs
  rw [hs]
  have hrlt : r < t.length := by
    by_contra hcon
    rw [List.getElem?_eq_none (by omega)] at h3
    cases h3
  have htake : List.take (r + 3) ('<' :: '@' :: t) = '<' :: '@' :: List.take (r + 1) t := by
    simp [List.take_succ_cons]
  rw [htake]
  have hlen : (List.take (r + 1) t).length = r + 1 := by
    rw [List.length_take]
    omega
  have hdl : (List.take (r + 1) t).dropLast = List.take r t := by
    rw [List.dropLast_eq_take, hlen]
    simp only [Nat.add_sub_cancel]
    rw [List.take_take]
    congr 1
    omega
  have htw : List.take r t = t.takeWhile isTokChar := by
    rw [hrdef]
    exact (takeWhile_eq_take_length isTokChar t).symm
  unfold matchShapeB
  simp only [decide_True, Bool.true_and]
  rw [hdl, htw]
  have hall : (t.takeWhile isTokChar).all isTokChar = true := all_takeWhile _ _
  rw [hall]
  simp only [Bool.true_and]
  have hlast : (List.take (r + 1) t).getLast? = some '>' := by
    rw [List.getLast?_eq_getElem?, hlen]
    simp only [Nat.add_sub_cancel]
    rw [List.getElem?_take_of_lt (by omega)]
    exact h3
  rw [← hrdef, hlast]
  simp [h1, h2]

theorem findIterF_shape :
    ∀ fuel s, s.length ≤ fuel →
      ∀ gm ∈ (findIterF fuel s).1, matchShapeB gm.2 = true := by
  intro fuel
  induction fuel with
  | zero =>
    intro s hs gm hgm
    have hnil : s = [] := List.length_eq_zero.mp (by omega)
    subst hnil
    simp [findIterF] at hgm
  | succ fuel ih =>
    intro s hs gm hgm
    cases s with
    | nil => simp [findIterF] at hgm
    | cons c rest =>
      rw [findIterF_succ_cons] at hgm
      cases hm : headMatch (c :: rest) with
      | some r =>
        rw [hm] at hgm
        simp only [List.mem_cons] at hgm
        rcases hgm with rfl | hgm
        · exact matchShapeB_of_headMatch c rest r hm
        · refine ih _ ?_ _ hgm
          rw [List.length_drop]
          simp only [List.length_cons] at hs ⊢
          omega
      | none =>
        rw [hm] at hgm
        have hrest : rest.length ≤ fuel := by
          simp only [List.length_cons] at hs
          omega
        cases hp : (findIterF fuel rest).1 with
        | nil => rw [hp] at hgm; simp at hgm
        | cons gm0 ps =>
          obtain ⟨g, m⟩ := gm0
          rw [hp] at hgm
          simp only [List.mem_cons] at hgm
          rcases hgm with rfl | hgm
          · have := ih rest hrest (g, m) (by rw [hp]; exact List.mem_cons_self _ _)
            simpa using this
          · exact ih rest hrest _ (by rw [hp]; exact List.mem_cons_of_mem _ hgm)

theorem flattenPairs_map (f : List Char × List Char → List Char)
    (ps : List (List Char × List Char)) :
    flattenPairs (ps.map fun gm => (gm.1, f gm)) =
      (ps.map fun gm => gm.1 ++ f gm).flatten := by
  unfold flattenPairs
  rw [List.map_map]
  rfl

theorem any_congr {α : Type} (l : List α) (p q : α → Bool)
    (h : ∀ a ∈ l, p a = q a) : l.any p = l.any q := by
  induction l with
  | nil => rfl
  | cons a rest ih =>
    simp only [List.any_cons]
    rw [h a (List.mem_cons_self _ _),
      ih fun b hb => h b (List.mem_cons_of_mem _ hb)]

theorem canonicalise_text_eq (nfkc : List Char → List Char) (s : List Char) :
    canonicalise_text nfkc s =
      (if (findIter s).1.isEmpty then s
        else ((findIter s).1.map fun gm =>
          gm.1 ++ (canonicalise_pointer nfkc gm.2).1).flatten ++ (findIter s).2,
        if (findIter s).1.isEmpty then false
        else (findIter s).1.any fun gm => (canonicalise_pointer nfkc gm.2).2) := by
  unfold canonicalise_text
  cases h : (findIter s).1.isEmpty
  · simp [h]
  · simp [h]

/-! ## Claim theorems -/

/-- C1: after NFKC normalisation and CRLF collapsing, a string that is too
long, lacks the `<@ … >` frame, or has no `:` in its interior is returned
unchanged with `changed = false`; otherwise only the part before the first
`:` is lower-cased, the remainder is untouched, and `changed` is true
exactly when the canonical form differs from the original input. -/
theorem claim1_pointer_contract (nfkc : List Char → List Char)
    (T : List Char) :
    (256 < (crlf (nfkc T)).length ∨ startsLtAt (crlf (nfkc T)) = false ∨
        endsGt (crlf (nfkc T)) = false ∨
        ':' ∉ ((crlf (nfkc T)).drop 2).dropLast →
      canonicalise_pointer nfkc T = (T, false)) ∧
    (∀ p r, crlf (nfkc T) = '<' :: '@' :: (p ++ ':' :: (r ++ ['>'])) →
      ':' ∉ p → (crlf (nfkc T)).length ≤ 256 →
      canonicalise_pointer nfkc T =
        ('<' :: '@' :: (p.map pyLower ++ ':' :: (r ++ ['>'])),
          decide ('<' :: '@' :: (p.map pyLower ++ ':' :: (r ++ ['>'])) ≠ T))) :=
  ⟨fun h => cp_invalid nfkc T h, fun p r hs hp hl => cp_valid nfkc T p r hs hp hl⟩

theorem claim1_witness :
    canonicalise_pointer id "<@AGENT:foo>".toList =
      ("<@agent:foo>".toList, true) ∧
    canonicalise_pointer id "<@AGENT>".toList = ("<@AGENT>".toList, false) := by
  constructor
  · rw [(claim1_pointer_contract id "<@AGENT:foo>".toList).2
      "AGENT".toList "foo".toList (by decide) (by decide) (by decide)]
    decide
  · exact (claim1_pointer_contract id "<@AGENT>".toList).1
      (Or.inr (Or.inr (Or.inr (by decide))))

/-- C5: the scanner decomposes the input into gaps, matches and a tail
whose concatenation reproduces the input verbatim and in order; every
match has the token shape `<@`, 1–255 non-`>` non-whitespace characters,
`>`; the output replaces each match by its canonical form and keeps all
gaps and the tail; the changed flag is true exactly when some match's
canonical form differs from it; with no matches the original string comes
back with `changed = false`. -/
theorem claim5_scan_contract (nfkc : List Char → List Char) (s : List Char) :
    flattenPairs (findIter s).1 ++ (findIter s).2 = s ∧
    ((findIter s).1.all fun gm => matchShapeB gm.2) = true ∧
    canonicalise_text nfkc s =
      (if (findIter s).1.isEmpty then s
        else flattenPairs ((findIter s).1.map fun gm =>
          (gm.1, (canonicalise_pointer nfkc gm.2).1)) ++ (findIter s).2,
        (findIter s).1.any fun gm =>
          decide ((canonicalise_pointer nfkc gm.2).1 ≠ gm.2)) := by
  refine ⟨findIterF_reconstruct s.length s le_rfl, ?_, ?_⟩
  · rw [List.all_eq_true]
    intro gm hgm
    exact findIterF_shape s.length s le_rfl gm hgm
  · have hany : ((findIter s).1.any fun gm =>
        (canonicalise_pointer nfkc gm.2).2) =
        (findIter s).1.any fun gm =>
          decide ((canonicalise_pointer nfkc gm.2).1 ≠ gm.2) :=
      any_congr _ _ _ fun gm _ => cp_flag nfkc gm.2
    rw [canonicalise_text_eq, flattenPairs_map, hany]
    cases h : (findIter s).1.isEmpty
    · simp [h]
    · have hps : (findIter s).1 = [] := List.isEmpty_iff.mp h
      simp [h, hps]

/-- C2 counterexample: `canonicalise_pointer` is not idempotent.  The token
`<@a:\r\r\nx>` normalises to `<@a:\r\nx>` (the collapse of `\r\n` leaves a
fresh CRLF pair behind), and a second application changes the result
again. -/
theorem claim2_counterexample :
    canonicalise_pointer id "<@a:\r\r\nx>".toList =
      ("<@a:\r\nx>".toList, true) ∧
    canonicalise_pointer id "<@a:\r\nx>".toList =
      ("<@a:\nx>".toList, true) ∧
    "<@a:\r\nx>".toList ≠ "<@a:\nx>".toList := by decide

theorem umr_count (nfkc : List Char → List Char) (dc : List Char)
    (store : Option (List MemoryRow)) (dry : Bool) (now : List Char) :
    (update_memory_records nfkc dc store dry now).1 =
      match store with
      | none => 0
      | some rows => (rows.filter (rowNeedsUpdate nfkc dc)).length := by
  cases store with
  | none => rfl
  | some rows =>
    by_cases h : ((rows.filter (rowNeedsUpdate nfkc dc)).isEmpty || dry) = true
    · simp [update_memory_records, h]
    · simp [update_memory_records, h]

/-- C3 (amended): a non-NULL stored column that parses as JSON counts as
changed exactly when the structural walker reports a change; when it does,
the stored text is replaced by the deterministic re-serialisation of the
walker output; when it does not, the stored text is returned byte-for-byte
even if its own serialisation (key order, whitespace) differs from the
deterministic form. -/
theorem claim3_column_change (nfkc : List Char → List Char) (dc : List Char)
    (t : List Char) (v : JsonValue) (h : jsonLoads t = some v) :
    process_json_text nfkc dc t =
      (if (canonicalise_json nfkc dc v).2 then
          jsonDumps (canonicalise_json nfkc dc v).1
        else t,
        (canonicalise_json nfkc dc v).2) ∧
    processColumn nfkc dc (some t) =
      (if (canonicalise_json nfkc dc v).2 then
          some (jsonDumps (canonicalise_json nfkc dc v).1)
        else none) := by
  unfold processColumn process_json_text
  simp only [h]
  cases hch : (canonicalise_json nfkc dc v).2 <;> simp [hch]

theorem claim3_witness :
    process_json_text id "private".toList
        "\x7b\"domain\": \"Example.COM\"\x7d".toList =
      ("\x7b\"domain\": \"example.com\"\x7d".toList, true) := by
  rw [(claim3_column_change id "private".toList
    "\x7b\"domain\": \"Example.COM\"\x7d".toList
    (.obj [("domain".toList, .str "Example.COM".toList)]) rfl).1]
  rfl

/-- C3 counterexample: the stored text `{"a":1}` parses as JSON and its
deterministic re-serialisation `{"a": 1}` differs byte-for-byte from it,
yet the adapter counts the column as unchanged because the walker reports
no change. -/
theorem claim3_counterexample :
    process_json_text id "private".toList "\x7b\"a\":1\x7d".toList =
      ("\x7b\"a\":1\x7d".toList, false) ∧
    jsonLoads "\x7b\"a\":1\x7d".toList =
      some (.obj [("a".toList, .num 1)]) ∧
    (canonicalise_json id "private".toList
      (.obj [("a".toList, .num 1)])).2 = false ∧
    jsonDumps (canonicalise_json id "private".toList
      (.obj [("a".toList, .num 1)])).1 ≠ "\x7b\"a\":1\x7d".toList := by
  refine ⟨rfl, rfl, rfl, by decide⟩

/-- C6: for a fixed input store the reported change count is the same in
dry-run and apply mode, for the relational adapter and for the whole-file
adapter alike: detection is shared and only the write is gated. -/
theorem claim6_dry_run_parity (nfkc : List Char → List Char) (dc : List Char)
    (store : Option (List MemoryRow)) (now : List Char)
    (files : List (List Char × Option (List Char))) :
    (update_memory_records nfkc dc store true now).1 =
      (update_memory_records nfkc dc store false now).1 ∧
    (canonicalise_json_files nfkc dc files true).2 =
      (canonicalise_json_files nfkc dc files false).2 := by
  constructor
  · rw [umr_count, umr_count]
  · induction files with
    | nil => rfl
    | cons f rest ih =>
      obtain ⟨name, c⟩ := f
      cases c with
      | none => rfl
      | some content =>
        simp only [canonicalise_json_files]
        rw [ih]

/-- C7: the whole-file adapter does not isolate per-file failures — it is
evaluated here at a list whose first file fails to read: the error
propagates, the second file (which the canonicaliser would change) is left
unprocessed, and no count is returned. -/
theorem claim7_failure_aborts :
    canonicalise_json_files id "private".toList
        [("a".toList, none), ("b".toList, some "<@A:b>".toList)] false =
      ([("a".toList, none), ("b".toList, some "<@A:b>".toList)],
        .error "a".toList) ∧
    (process_json_text id "private".toList "<@A:b>".toList).2 = true := by
  exact ⟨rfl, rfl⟩

/-- C8 (amended): a rewritten file always ends with at least one newline —
the adapter appends one only when the transformed text does not already
end with `\n`, so text already ending in several newlines is written
unchanged and may keep more than one. -/
theorem claim8_trailing_newline (nfkc : List Char → List Char)
    (dc : List Char) :
    (∀ u : List Char,
      writeText u = u ++ (if u.getLast? = some '\n' then [] else ['\n']) ∧
      (writeText u).getLast? = some '\n') ∧
    (∀ name c : List Char, ∀ rest, (process_json_text nfkc dc c).2 = true →
      canonicalise_json_files nfkc dc ((name, some c) :: rest) false =
        ((name, some (writeText (process_json_text nfkc dc c).1)) ::
            (canonicalise_json_files nfkc dc rest false).1,
          (canonicalise_json_files nfkc dc rest false).2.map fun n => n + 1)) := by
  constructor
  · intro u
    refine ⟨rfl, ?_⟩
    unfold writeText
    by_cases h : u.getLast? = some '\n'
    · simp [h]
    · simp [h, List.getLast?_concat]
  · intro name c rest hch
    simp [canonicalise_json_files, hch]

theorem claim8_witness :
    canonicalise_json_files id "private".toList
        [("f".toList, some "<@A:b>\n\n".toList)] false =
      ([("f".toList, some (writeText "<@a:b>\n\n".toList))], .ok 1) := by
  have h := (claim8_trailing_newline id "private".toList).2 "f".toList
    "<@A:b>\n\n".toList [] (by rfl)
  rw [h]
  rfl

/-- C8 counterexample: a changed file whose transformed text already ends
in two newlines is written back still ending in two newlines, not exactly
one. -/
theorem claim8_counterexample :
    canonicalise_json_files id "private".toList
        [("f".toList, some "<@A:b>\n\n".toList)] false =
      ([("f".toList, some "<@a:b>\n\n".toList)], .ok 1) ∧
    ("<@a:b>\n\n".toList.getLast? = some '\n' ∧
      "<@a:b>\n\n".toList.dropLast.getLast? = some '\n') :=
  ⟨rfl, by decide⟩

/-! ## Association-list lemmas for the dict model -/

theorem lookupKey_nil (k : List Char) : lookupKey [] k = none := rfl

theorem lookupKey_cons (k' : List Char) (v' : JsonValue)
    (fs : List (List Char × JsonValue)) (k : List Char) :
    lookupKey ((k', v') :: fs) k =
      if k' = k then some v' else lookupKey fs k := by
  unfold lookupKey
  by_cases h : k' = k
  · rw [List.find?_cons_of_pos _ (by simpa using h), if_pos h]
    rfl
  · rw [List.find?_cons_of_neg _ (by simpa using h), if_neg h]

theorem setKey_nil (k : List Char) (v : JsonValue) :
    setKey [] k v = [(k, v)] := rfl

theorem setKey_cons (k' : List Char) (v' : JsonValue)
    (fs : List (List Char × JsonValue)) (k : List Char) (v : JsonValue) :
    setKey ((k', v') :: fs) k v =
      if k' = k then (k, v) :: fs else (k', v') :: setKey fs k v := rfl

theorem hasKey_nil (k : List Char) : hasKey [] k = false := rfl

theorem hasKey_cons (k' : List Char) (v' : JsonValue)
    (fs : List (List Char × JsonValue)) (k : List Char) :
    hasKey ((k', v') :: fs) k = (decide (k' = k) || hasKey fs k) := by
  simp [hasKey, List.any_cons]

theorem lookupKey_setKey_self (fs : List (List Char × JsonValue))
    (k : List Char) (v : JsonValue) :
    lookupKey (setKey fs k v) k = some v := by
  induction fs with
  | nil => simp [setKey_nil, lookupKey_cons]
  | cons kv rest ih =>
    obtain ⟨k', v'⟩ := kv
    rw [setKey_cons]
    by_cases h : k' = k
    · rw [if_pos h, lookupKey_cons, if_pos rfl]
    · rw [if_neg h, lookupKey_cons, if_neg h]
      exact ih

theorem lookupKey_setKey_other (fs : List (List Char × JsonValue))
    (k : List Char) (v : JsonValue) (k' : List Char) (h : k' ≠ k) :
    lookupKey (setKey fs k v) k' = lookupKey fs k' := by
  induction fs with
  | nil =>
    rw [setKey_nil, lookupKey_cons, if_neg fun hx => h hx.symm, lookupKey_nil]
  | cons kv rest ih =>
    obtain ⟨k0, v0⟩ := kv
    rw [setKey_cons]
    by_cases h0 : k0 = k
    · subst h0
      rw [if_pos rfl, lookupKey_cons, lookupKey_cons,
        if_neg fun hx => h hx.symm, if_neg fun hx => h hx.symm]
    · rw [if_neg h0, lookupKey_cons, lookupKey_cons, ih]

theorem hasKey_setKey (fs : List (List Char × JsonValue))
    (k : List Char) (v : JsonValue) (k' : List Char) :
    hasKey (setKey fs k v) k' = (decide (k = k') || hasKey fs k') := by
  induction fs with
  | nil => simp [setKey_nil, hasKey_cons, hasKey_nil]
  | cons kv rest ih =>
    obtain ⟨k0, v0⟩ := kv
    rw [setKey_cons]
    by_cases h0 : k0 = k
    · subst h0
      rw [if_pos rfl, hasKey_cons, hasKey_cons]
      cases hd : decide (k0 = k') <;> simp [hd]
    · rw [if_neg h0, hasKey_cons, hasKey_cons, ih]
      cases hk : decide (k = k') <;> cases hk0 : decide (k0 = k') <;> simp

theorem hasKey_of_lookup (fs : List (List Char × JsonValue))
    (k : List Char) (v : JsonValue) (h : lookupKey fs k = some v) :
    hasKey fs k = true := by
  induction fs with
  | nil => rw [lookupKey_nil] at h; cases h
  | cons kv rest ih =>
    obtain ⟨k0, v0⟩ := kv
    rw [lookupKey_cons] at h
    rw [hasKey_cons]
    by_cases h0 : k0 = k
    · simp [h0]
    · rw [if_neg h0] at h
      simp [ih h]

theorem lookup_none_of_hasKey_false (fs : List (List Char × JsonValue))
    (k : List Char) (h : hasKey fs k = false) : lookupKey fs k = none := by
  cases hl : lookupKey fs k with
  | none => rfl
  | some v => rw [hasKey_of_lookup fs k v hl] at h; cases h

theorem not_mem_keys_of_hasKey_false (fs : List (List Char × JsonValue))
    (k : List Char) (h : hasKey fs k = false) : k ∉ fs.map Prod.fst := by
  intro hm
  rw [List.mem_map] at hm
  obtain ⟨kv, hkv, hfst⟩ := hm
  have : hasKey fs k = true := by
    unfold hasKey
    rw [List.any_eq_true]
    exact ⟨kv, hkv, by simp [hfst]⟩
  rw [this] at h
  cases h

theorem lookup_of_mem_nodup (fs : List (List Char × JsonValue))
    (k : List Char) (v : JsonValue) (hnd : (fs.map Prod.fst).Nodup)
    (hm : (k, v) ∈ fs) : lookupKey fs k = some v := by
  induction fs with
  | nil => cases hm
  | cons kv rest ih =>
    obtain ⟨k0, v0⟩ := kv
    rw [lookupKey_cons]
    rcases List.mem_cons.mp hm with heq | hmem
    · rw [Prod.mk.injEq] at heq
      rw [if_pos heq.1.symm, heq.2]
    · have hk0 : k0 ≠ k := by
        intro hx
        subst hx
        have : k0 ∈ rest.map Prod.fst :=
          List.mem_map.mpr ⟨(k0, v), hmem, rfl⟩
        rw [List.map_cons] at hnd
        exact (List.nodup_cons.mp hnd).1 this
      rw [if_neg hk0]
      exact ih (by rw [List.map_cons] at hnd; exact (List.nodup_cons.mp hnd).2) hmem

/-! ## Equation and size lemmas for the structural walker -/

theorem jsize_pos (v : JsonValue) : 1 ≤ jsize v := by
  cases v <;> simp [jsize]

theorem jsizeL_pos (l : List JsonValue) : 1 ≤ jsizeL l := by
  cases l with
  | nil => simp [jsizeL]
  | cons v rest =>
    show 1 ≤ 1 + jsize v + jsizeL rest
    omega

theorem jsizeF_pos (sn : List (List Char × JsonValue)) : 1 ≤ jsizeF sn := by
  cases sn with
  | nil => simp [jsizeF]
  | cons kv rest =>
    obtain ⟨k, v⟩ := kv
    show 1 ≤ 1 + jsize v + jsizeF rest
    omega

theorem jsizeF_cons (k : List Char) (v : JsonValue)
    (rest : List (List Char × JsonValue)) :
    jsizeF ((k, v) :: rest) = 1 + jsize v + jsizeF rest := rfl

theorem jsizeL_cons (v : JsonValue) (rest : List JsonValue) :
    jsizeL (v :: rest) = 1 + jsize v + jsizeL rest := rfl

theorem cjF_zero (nfkc : List Char → List Char) (dc : List Char)
    (v : JsonValue) : cjF nfkc dc 0 v = (v, false) := rfl

theorem cjF_null (nfkc : List Char → List Char) (dc : List Char) (fuel : Nat) :
    cjF nfkc dc (fuel + 1) .null = (.null, false) := rfl

theorem cjF_bool (nfkc : List Char → List Char) (dc : List Char) (fuel : Nat)
    (b : Bool) : cjF nfkc dc (fuel + 1) (.bool b) = (.bool b, false) := rfl

theorem cjF_num (nfkc : List Char → List Char) (dc : List Char) (fuel : Nat)
    (n : Int) : cjF nfkc dc (fuel + 1) (.num n) = (.num n, false) := rfl

theorem cjF_str (nfkc : List Char → List Char) (dc : List Char) (fuel : Nat)
    (s : List Char) :
    cjF nfkc dc (fuel + 1) (.str s) =
      (.str (canonicalise_text nfkc s).1, (canonicalise_text nfkc s).2) := rfl

theorem cjF_arr (nfkc : List Char → List Char) (dc : List Char) (fuel : Nat)
    (items : List JsonValue) :
    cjF nfkc dc (fuel + 1) (.arr items) =
      (.arr (piF nfkc dc fuel items).1, (piF nfkc dc fuel items).2) := rfl

theorem cjF_obj_domain_str (nfkc : List Char → List Char) (dc : List Char)
    (fuel : Nat) (fields : List (List Char × JsonValue)) (d : List Char)
    (h : lookupKey (pfF nfkc dc fuel fields fields false).1 domainKey =
      some (.str d)) :
    cjF nfkc dc (fuel + 1) (.obj fields) =
      if d.map pyLower ≠ d then
        (.obj (setKey (pfF nfkc dc fuel fields fields false).1 domainKey
          (.str (d.map pyLower))), true)
      else (.obj (pfF nfkc dc fuel fields fields false).1,
        (pfF nfkc dc fuel fields fields false).2) := by
  simp only [cjF]
  rw [h]

theorem cjF_obj_domain_not_str (nfkc : List Char → List Char) (dc : List Char)
    (fuel : Nat) (fields : List (List Char × JsonValue))
    (h : ∀ d, lookupKey (pfF nfkc dc fuel fields fields false).1 domainKey ≠
      some (.str d)) :
    cjF nfkc dc (fuel + 1) (.obj fields) =
      (.obj (pfF nfkc dc fuel fields fields false).1,
        (pfF nfkc dc fuel fields fields false).2) := by
  simp only [cjF]

theorem piF_zero (nfkc : List Char → List Char) (dc : List Char)
    (l : List JsonValue) : piF nfkc dc 0 l = (l, false) := rfl

theorem piF_succ_nil (nfkc : List Char → List Char) (dc : List Char)
    (fuel : Nat) : piF nfkc dc (fuel + 1) [] = ([], false) := rfl

theorem piF_cons (nfkc : List Char → List Char) (dc : List Char) (fuel : Nat)
    (item : JsonValue) (rest : List JsonValue) :
    piF nfkc dc (fuel + 1) (item :: rest) =
      ((if (cjF nfkc dc fuel item).2 then (cjF nfkc dc fuel item).1
          else item) :: (piF nfkc dc fuel rest).1,
        (cjF nfkc dc fuel item).2 || (piF nfkc dc fuel rest).2) := rfl

theorem pfF_zero (nfkc : List Char → List Char) (dc : List Char)
    (sn cur : List (List Char × JsonValue)) (ch : Bool) :
    pfF nfkc dc 0 sn cur ch = (cur, ch) := rfl

theorem pfF_succ_nil (nfkc : List Char → List Char) (dc : List Char)
    (fuel : Nat) (cur : List (List Char × JsonValue)) (ch : Bool) :
    pfF nfkc dc (fuel + 1) [] cur ch = (cur, ch) := rfl

theorem pfF_cons_str (nfkc : List Char → List Char) (dc : List Char)
    (fuel : Nat) (key s : List Char)
    (rest cur : List (List Char × JsonValue)) (ch : Bool) :
    pfF nfkc dc (fuel + 1) ((key, .str s) :: rest) cur ch =
      if (canonicalise_pointer nfkc s).2 then
        pfF nfkc dc fuel rest
          (if key = ptrKey ∧
              hasKey (setKey cur key (.str (canonicalise_pointer nfkc s).1))
                consentKey = false then
            setKey (setKey cur key (.str (canonicalise_pointer nfkc s).1))
              consentKey (.str dc)
          else setKey cur key (.str (canonicalise_pointer nfkc s).1)) true
      else if (canonicalise_text nfkc s).2 then
        pfF nfkc dc fuel rest
          (setKey cur key (.str (canonicalise_text nfkc s).1)) true
      else pfF nfkc dc fuel rest cur ch := rfl

theorem pfF_cons_notstr (nfkc : List Char → List Char) (dc : List Char)
    (fuel : Nat) (key : List Char) (item : JsonValue)
    (rest cur : List (List Char × JsonValue)) (ch : Bool)
    (h : ∀ s, item ≠ .str s) :
    pfF nfkc dc (fuel + 1) ((key, item) :: rest) cur ch =
      if (cjF nfkc dc fuel item).2 then
        pfF nfkc dc fuel rest (setKey cur key (cjF nfkc dc fuel item).1) true
      else pfF nfkc dc fuel rest cur ch := by
  cases item with
  | str s => exact absurd rfl (h s)
  | null => rfl
  | bool b => rfl
  | num n => rfl
  | arr l => rfl
  | obj fs => rfl

theorem text_unchanged (nfkc : List Char → List Char) (s : List Char)
    (h : (canonicalise_text nfkc s).2 = false) :
    (canonicalise_text nfkc s).1 = s := by
  rw [canonicalise_text_eq] at h ⊢
  cases he : (findIter s).1.isEmpty
  · simp only [he, Bool.false_eq_true, if_false] at h ⊢
    rw [List.any_eq_false] at h
    have hmap : ((findIter s).1.map fun gm =>
        gm.1 ++ (canonicalise_pointer nfkc gm.2).1) =
        (findIter s).1.map fun gm => gm.1 ++ gm.2 :=
      List.map_congr_left fun gm hgm => by
        rw [cp_output_of_flag_false nfkc gm.2 (by simpa using h gm hgm)]
    rw [hmap]
    exact findIterF_reconstruct s.length s le_rfl
  · simp [he]

/-! ## Fuel irrelevance and no-change lemmas for the walker -/

theorem walker_fuel_irrel (nfkc : List Char → List Char) (dc : List Char) :
    ∀ f1 : Nat,
      (∀ v f2, jsize v ≤ f1 → jsize v ≤ f2 →
        cjF nfkc dc f1 v = cjF nfkc dc f2 v) ∧
      (∀ l f2, jsizeL l ≤ f1 → jsizeL l ≤ f2 →
        piF nfkc dc f1 l = piF nfkc dc f2 l) ∧
      (∀ sn cur ch f2, jsizeF sn ≤ f1 → jsizeF sn ≤ f2 →
        pfF nfkc dc f1 sn cur ch = pfF nfkc dc f2 sn cur ch) := by
  intro f1
  induction f1 using Nat.strong_induction_on with
  | _ f1 ih =>
    refine ⟨?_, ?_, ?_⟩
    · intro v f2 h1 h2
      have hv := jsize_pos v
      obtain ⟨g, rfl⟩ : ∃ g, f1 = g + 1 := ⟨f1 - 1, by omega⟩
      obtain ⟨g2, rfl⟩ : ∃ g2, f2 = g2 + 1 := ⟨f2 - 1, by omega⟩
      cases v with
      | null => rfl
      | bool b => rfl
      | num n => rfl
      | str s => rfl
      | arr items =>
        have hb1 : jsizeL items ≤ g := by
          simp only [jsize] at h1
          omega
        have hb2 : jsizeL items ≤ g2 := by
          simp only [jsize] at h2
          omega
        rw [cjF_arr, cjF_arr, (ih g (by omega)).2.1 items g2 hb1 hb2]
      | obj fields =>
        have hb1 : jsizeF fields ≤ g := by
          simp only [jsize] at h1
          omega
        have hb2 : jsizeF fields ≤ g2 := by
          simp only [jsize] at h2
          omega
        have hpf := (ih g (by omega)).2.2 fields fields false g2 hb1 hb2
        simp only [cjF]
        rw [hpf]
    · intro l f2 h1 h2
      cases l with
      | nil =>
        cases f1 <;> cases f2 <;> rfl
      | cons item rest =>
        have hl := jsizeL_pos rest
        have hv := jsize_pos item
        rw [jsizeL_cons] at h1 h2
        obtain ⟨g, rfl⟩ : ∃ g, f1 = g + 1 := ⟨f1 - 1, by omega⟩
        obtain ⟨g2, rfl⟩ : ∃ g2, f2 = g2 + 1 := ⟨f2 - 1, by omega⟩
        rw [piF_cons, piF_cons,
          (ih g (by omega)).1 item g2 (by omega) (by omega),
          (ih g (by omega)).2.1 rest g2 (by omega) (by omega)]
    · intro sn cur ch f2 h1 h2
      cases sn with
      | nil =>
        cases f1 <;> cases f2 <;> rfl
      | cons kv rest =>
        obtain ⟨key, item⟩ := kv
        have hf := jsizeF_pos rest
        have hv := jsize_pos item
        rw [jsizeF_cons] at h1 h2
        obtain ⟨g, rfl⟩ : ∃ g, f1 = g + 1 := ⟨f1 - 1, by omega⟩
        obtain ⟨g2, rfl⟩ : ∃ g2, f2 = g2 + 1 := ⟨f2 - 1, by omega⟩
        have hrest : ∀ cur' ch', pfF nfkc dc g rest cur' ch' =
            pfF nfkc dc g2 rest cur' ch' := fun cur' ch' =>
          (ih g (by omega)).2.2 rest cur' ch' g2 (by omega) (by omega)
        cases item with
        | str s =>
          rw [pfF_cons_str, pfF_cons_str, hrest, hrest, hrest]
        | null =>
          rw [pfF_cons_notstr nfkc dc g key .null rest cur ch
              (fun s hx => JsonValue.noConfusion hx),
            pfF_cons_notstr nfkc dc g2 key .null rest cur ch
              (fun s hx => JsonValue.noConfusion hx),
            (ih g (by omega)).1 .null g2 (by omega) (by omega), hrest, hrest]
        | bool b =>
          rw [pfF_cons_notstr nfkc dc g key (.bool b) rest cur ch
              (fun s hx => JsonValue.noConfusion hx),
            pfF_cons_notstr nfkc dc g2 key (.bool b) rest cur ch
              (fun s hx => JsonValue.noConfusion hx),
            (ih g (by omega)).1 (.bool b) g2 (by omega) (by omega),
            hrest, hrest]
        | num n =>
          rw [pfF_cons_notstr nfkc dc g key (.num n) rest cur ch
              (fun s hx => JsonValue.noConfusion hx),
            pfF_cons_notstr nfkc dc g2 key (.num n) rest cur ch
              (fun s hx => JsonValue.noConfusion hx),
            (ih g (by omega)).1 (.num n) g2 (by omega) (by omega),
            hrest, hrest]
        | arr l =>
          rw [pfF_cons_notstr nfkc dc g key (.arr l) rest cur ch
              (fun s hx => JsonValue.noConfusion hx),
            pfF_cons_notstr nfkc dc g2 key (.arr l) rest cur ch
              (fun s hx => JsonValue.noConfusion hx),
            (ih g (by omega)).1 (.arr l) g2 (by omega) (by omega),
            hrest, hrest]
        | obj fs =>
          rw [pfF_cons_notstr nfkc dc g key (.obj fs) rest cur ch
              (fun s hx => JsonValue.noConfusion hx),
            pfF_cons_notstr nfkc dc g2 key (.obj fs) rest cur ch
              (fun s hx => JsonValue.noConfusion hx),
            (ih g (by omega)).1 (.obj fs) g2 (by omega) (by omega),
            hrest, hrest]

theorem walker_unchanged (nfkc : List Char → List Char) (dc : List Char) :
    ∀ fuel : Nat,
      (∀ v, (cjF nfkc dc fuel v).2 = false → (cjF nfkc dc fuel v).1 = v) ∧
      (∀ l, (piF nfkc dc fuel l).2 = false → (piF nfkc dc fuel l).1 = l) ∧
      (∀ sn cur ch, (pfF nfkc dc fuel sn cur ch).2 = false →
        (pfF nfkc dc fuel sn cur ch).1 = cur ∧ ch = false) := by
  intro fuel
  induction fuel using Nat.strong_induction_on with
  | _ fuel ih =>
    refine ⟨?_, ?_, ?_⟩
    · intro v hflag
      cases fuel with
      | zero => rfl
      | succ g =>
        cases v with
        | null => rfl
        | bool b => rfl
        | num n => rfl
        | str s =>
          rw [cjF_str] at hflag ⊢
          rw [text_unchanged nfkc s hflag]
        | arr items =>
          rw [cjF_arr] at hflag ⊢
          rw [(ih g (by omega)).2.1 items hflag]
        | obj fields =>
          cases hd : lookupKey (pfF nfkc dc g fields fields false).1
              domainKey with
          | some w =>
            cases w with
            | str d =>
              rw [cjF_obj_domain_str nfkc dc g fields d hd] at hflag ⊢
              by_cases hlow : d.map pyLower ≠ d
              · rw [if_pos hlow] at hflag
                cases hflag
              · rw [if_neg hlow] at hflag ⊢
                obtain ⟨hpr, -⟩ := (ih g (by omega)).2.2 fields fields false hflag
                rw [hpr]
            | null =>
              rw [cjF_obj_domain_not_str nfkc dc g fields
                (by intro d hx; rw [hd] at hx; cases hx)] at hflag ⊢
              obtain ⟨hpr, -⟩ := (ih g (by omega)).2.2 fields fields false hflag
              rw [hpr]
            | bool b =>
              rw [cjF_obj_domain_not_str nfkc dc g fields
                (by intro d hx; rw [hd] at hx; cases hx)] at hflag ⊢
              obtain ⟨hpr, -⟩ := (ih g (by omega)).2.2 fields fields false hflag
              rw [hpr]
            | num n =>
              rw [cjF_obj_domain_not_str nfkc dc g fields
                (by intro d hx; rw [hd] at hx; cases hx)] at hflag ⊢
              obtain ⟨hpr, -⟩ := (ih g (by omega)).2.2 fields fields false hflag
              rw [hpr]
            | arr l =>
              rw [cjF_obj_domain_not_str nfkc dc g fields
                (by intro d hx; rw [hd] at hx; cases hx)] at hflag ⊢
              obtain ⟨hpr, -⟩ := (ih g (by omega)).2.2 fields fields false hflag
              rw [hpr]
            | obj fs =>
              rw [cjF_obj_domain_not_str nfkc dc g fields
                (by intro d hx; rw [hd] at hx; cases hx)] at hflag ⊢
              obtain ⟨hpr, -⟩ := (ih g (by omega)).2.2 fields fields false hflag
              rw [hpr]
          | none =>
            rw [cjF_obj_domain_not_str nfkc dc g fields
              (by intro d hx; rw [hd] at hx; cases hx)] at hflag ⊢
            obtain ⟨hpr, -⟩ := (ih g (by omega)).2.2 fields fields false hflag
            rw [hpr]
    · intro l hflag
      cases fuel with
      | zero => rfl
      | succ g =>
        cases l with
        | nil => rfl
        | cons item rest =>
          rw [piF_cons] at hflag ⊢
          rw [Bool.or_eq_false_iff] at hflag
          obtain ⟨h1, h2⟩ := hflag
          rw [h1, if_neg (by simp), (ih g (by omega)).2.1 rest h2]
    · intro sn cur ch hflag
      cases fuel with
      | zero => exact ⟨rfl, hflag⟩
      | succ g =>
        cases sn with
        | nil => exact ⟨rfl, hflag⟩
        | cons kv rest =>
          obtain ⟨key, item⟩ := kv
          cases item with
          | str s =>
            rw [pfF_cons_str] at hflag ⊢
            by_cases hup : (canonicalise_pointer nfkc s).2 = true
            · rw [if_pos hup] at hflag ⊢
              obtain ⟨-, hcontr⟩ := (ih g (by omega)).2.2 _ _ _ hflag
              cases hcontr
            · rw [if_neg hup] at hflag ⊢
              by_cases hct : (canonicalise_text nfkc s).2 = true
              · rw [if_pos hct] at hflag ⊢
                obtain ⟨-, hcontr⟩ := (ih g (by omega)).2.2 _ _ _ hflag
                cases hcontr
              · rw [if_neg hct] at hflag ⊢
                exact (ih g (by omega)).2.2 _ _ _ hflag
          | null =>
            rw [pfF_cons_notstr nfkc dc g key .null rest cur ch
              (fun s hx => JsonValue.noConfusion hx)] at hflag ⊢
            by_cases hcj : (cjF nfkc dc g .null).2 = true
            · rw [if_pos hcj] at hflag ⊢
              obtain ⟨-, hcontr⟩ := (ih g (by omega)).2.2 _ _ _ hflag
              cases hcontr
            · rw [if_neg hcj] at hflag ⊢
              exact (ih g (by omega)).2.2 _ _ _ hflag
          | bool b =>
            rw [pfF_cons_notstr nfkc dc g key (.bool b) rest cur ch
              (fun s hx => JsonValue.noConfusion hx)] at hflag ⊢
            by_cases hcj : (cjF nfkc dc g (.bool b)).2 = true
            · rw [if_pos hcj] at hflag ⊢
              obtain ⟨-, hcontr⟩ := (ih g (by omega)).2.2 _ _ _ hflag
              cases hcontr
            · rw [if_neg hcj] at hflag ⊢
              exact (ih g (by omega)).2.2 _ _ _ hflag
          | num n =>
            rw [pfF_cons_notstr nfkc dc g key (.num n) rest cur ch
              (fun s hx => JsonValue.noConfusion hx)] at hflag ⊢
            by_cases hcj : (cjF nfkc dc g (.num n)).2 = true
            · rw [if_pos hcj] at hflag ⊢
              obtain ⟨-, hcontr⟩ := (ih g (by omega)).2.2 _ _ _ hflag
              cases hcontr
            · rw [if_neg hcj] at hflag ⊢
              exact (ih g (by omega)).2.2 _ _ _ hflag
          | arr l =>
            rw [pfF_cons_notstr nfkc dc g key (.arr l) rest cur ch
              (fun s hx => JsonValue.noConfusion hx)] at hflag ⊢
            by_cases hcj : (cjF nfkc dc g (.arr l)).2 = true
            · rw [if_pos hcj] at hflag ⊢
              obtain ⟨-, hcontr⟩ := (ih g (by omega)).2.2 _ _ _ hflag
              cases hcontr
            · rw [if_neg hcj] at hflag ⊢
              exact (ih g (by omega)).2.2 _ _ _ hflag
          | obj fs =>
            rw [pfF_cons_notstr nfkc dc g key (.obj fs) rest cur ch
              (fun s hx => JsonValue.noConfusion hx)] at hflag ⊢
            by_cases hcj : (cjF nfkc dc g (.obj fs)).2 = true
            · rw [if_pos hcj] at hflag ⊢
              obtain ⟨-, hcontr⟩ := (ih g (by omega)).2.2 _ _ _ hflag
              cases hcontr
            · rw [if_neg hcj] at hflag ⊢
              exact (ih g (by omega)).2.2 _ _ _ hflag

theorem canonicalise_json_unchanged (nfkc : List Char → List Char)
    (dc : List Char) (v : JsonValue)
    (h : (canonicalise_json nfkc dc v).2 = false) :
    (canonicalise_json nfkc dc v).1 = v :=
  (walker_unchanged nfkc dc (jsize v)).1 v h

theorem canonicalise_json_eq_cjF (nfkc : List Char → List Char)
    (dc : List Char) (v : JsonValue) (fuel : Nat) (h : jsize v ≤ fuel) :
    canonicalise_json nfkc dc v = cjF nfkc dc fuel v := by
  unfold canonicalise_json
  exact (walker_fuel_irrel nfkc dc (jsize v)).1 v fuel le_rfl h

/-! ## How the object loop treats individual keys -/

theorem ptrKey_ne_consentKey : ptrKey ≠ consentKey := by decide

theorem domainKey_ne_consentKey : domainKey ≠ consentKey := by decide

theorem pfF_lookup_other (nfkc : List Char → List Char) (dc : List Char) :
    ∀ (sn : List (List Char × JsonValue)) fuel cur ch (k : List Char),
      k ∉ sn.map Prod.fst → k ≠ consentKey →
      lookupKey (pfF nfkc dc fuel sn cur ch).1 k = lookupKey cur k := by
  intro sn
  induction sn with
  | nil =>
    intro fuel cur ch k _ _
    cases fuel <;> rfl
  | cons kv rest ih =>
    intro fuel cur ch k hk hkc
    obtain ⟨key, item⟩ := kv
    rw [List.map_cons, List.mem_cons] at hk
    push_neg at hk
    obtain ⟨hkey, hrest⟩ := hk
    have hkey' : key ≠ k := fun hx => hkey hx.symm
    cases fuel with
    | zero => rfl
    | succ g =>
      have hset : ∀ w, lookupKey (setKey cur key w) k = lookupKey cur k :=
        fun w => lookupKey_setKey_other cur key w k hkey
      cases item with
      | str s =>
        rw [pfF_cons_str]
        by_cases hup : (canonicalise_pointer nfkc s).2 = true
        · rw [if_pos hup]
          by_cases hinj : key = ptrKey ∧
              hasKey (setKey cur key
                (.str (canonicalise_pointer nfkc s).1)) consentKey = false
          · rw [if_pos hinj, ih g _ true k hrest hkc,
              lookupKey_setKey_other _ _ _ _ hkc, hset]
          · rw [if_neg hinj, ih g _ true k hrest hkc, hset]
        · rw [if_neg hup]
          by_cases hct : (canonicalise_text nfkc s).2 = true
          · rw [if_pos hct, ih g _ true k hrest hkc, hset]
          · rw [if_neg hct, ih g _ ch k hrest hkc]
      | null =>
        rw [pfF_cons_notstr nfkc dc g key .null rest cur ch
          (fun s hx => JsonValue.noConfusion hx)]
        by_cases hcj : (cjF nfkc dc g .null).2 = true
        · rw [if_pos hcj, ih g _ true k hrest hkc, hset]
        · rw [if_neg hcj, ih g _ ch k hrest hkc]
      | bool b =>
        rw [pfF_cons_notstr nfkc dc g key (.bool b) rest cur ch
          (fun s hx => JsonValue.noConfusion hx)]
        by_cases hcj : (cjF nfkc dc g (.bool b)).2 = true
        · rw [if_pos hcj, ih g _ true k hrest hkc, hset]
        · rw [if_neg hcj, ih g _ ch k hrest hkc]
      | num n =>
        rw [pfF_cons_notstr nfkc dc g key (.num n) rest cur ch
          (fun s hx => JsonValue.noConfusion hx)]
        by_cases hcj : (cjF nfkc dc g (.num n)).2 = true
        · rw [if_pos hcj, ih g _ true k hrest hkc, hset]
        · rw [if_neg hcj, ih g _ ch k hrest hkc]
      | arr l =>
        rw [pfF_cons_notstr nfkc dc g key (.arr l) rest cur ch
          (fun s hx => JsonValue.noConfusion hx)]
        by_cases hcj : (cjF nfkc dc g (.arr l)).2 = true
        · rw [if_pos hcj, ih g _ true k hrest hkc, hset]
        · rw [if_neg hcj, ih g _ ch k hrest hkc]
      | obj fs =>
        rw [pfF_cons_notstr nfkc dc g key (.obj fs) rest cur ch
          (fun s hx => JsonValue.noConfusion hx)]
        by_cases hcj : (cjF nfkc dc g (.obj fs)).2 = true
        · rw [if_pos hcj, ih g _ true k hrest hkc, hset]
        · rw [if_neg hcj, ih g _ ch k hrest hkc]

theorem pfF_consent_present (nfkc : List Char → List Char) (dc : List Char) :
    ∀ (sn : List (List Char × JsonValue)) fuel cur ch,
      hasKey cur consentKey = true → consentKey ∉ sn.map Prod.fst →
      lookupKey (pfF nfkc dc fuel sn cur ch).1 consentKey =
        lookupKey cur consentKey := by
  intro sn
  induction sn with
  | nil =>
    intro fuel cur ch _ _
    cases fuel <;> rfl
  | cons kv rest ih =>
    intro fuel cur ch hcur hsn
    obtain ⟨key, item⟩ := kv
    rw [List.map_cons, List.mem_cons] at hsn
    push_neg at hsn
    obtain ⟨hkeyc, hrest⟩ := hsn
    have hkeyc' : consentKey ≠ key := hkeyc
    cases fuel with
    | zero => rfl
    | succ g =>
      have hset : ∀ w, lookupKey (setKey cur key w) consentKey =
          lookupKey cur consentKey :=
        fun w => lookupKey_setKey_other cur key w consentKey hkeyc'
      have hsetHas : ∀ w, hasKey (setKey cur key w) consentKey = true := by
        intro w
        rw [hasKey_setKey, hcur]
        simp
      cases item with
      | str s =>
        rw [pfF_cons_str]
        by_cases hup : (canonicalise_pointer nfkc s).2 = true
        · rw [if_pos hup,
            if_neg (by
              intro hx
              rw [hsetHas _] at hx
              cases hx.2),
            ih g _ true (hsetHas _) hrest, hset]
        · rw [if_neg hup]
          by_cases hct : (canonicalise_text nfkc s).2 = true
          · rw [if_pos hct, ih g _ true (hsetHas _) hrest, hset]
          · rw [if_neg hct, ih g _ ch hcur hrest]
      | null =>
        rw [pfF_cons_notstr nfkc dc g key .null rest cur ch
          (fun s hx => JsonValue.noConfusion hx)]
        by_cases hcj : (cjF nfkc dc g .null).2 = true
        · rw [if_pos hcj, ih g _ true (hsetHas _) hrest, hset]
        · rw [if_neg hcj, ih g _ ch hcur hrest]
      | bool b =>
        rw [pfF_cons_notstr nfkc dc g key (.bool b) rest cur ch
          (fun s hx => JsonValue.noConfusion hx)]
        by_cases hcj : (cjF nfkc dc g (.bool b)).2 = true
        · rw [if_pos hcj, ih g _ true (hsetHas _) hrest, hset]
        · rw [if_neg hcj, ih g _ ch hcur hrest]
      | num n =>
        rw [pfF_cons_notstr nfkc dc g key (.num n) rest cur ch
          (fun s hx => JsonValue.noConfusion hx)]
        by_cases hcj : (cjF nfkc dc g (.num n)).2 = true
        · rw [if_pos hcj, ih g _ true (hsetHas _) hrest, hset]
        · rw [if_neg hcj, ih g _ ch hcur hrest]
      | arr l =>
        rw [pfF_cons_notstr nfkc dc g key (.arr l) rest cur ch
          (fun s hx => JsonValue.noConfusion hx)]
        by_cases hcj : (cjF nfkc dc g (.arr l)).2 = true
        · rw [if_pos hcj, ih g _ true (hsetHas _) hrest, hset]
        · rw [if_neg hcj, ih g _ ch hcur hrest]
      | obj fs =>
        rw [pfF_cons_notstr nfkc dc g key (.obj fs) rest cur ch
          (fun s hx => JsonValue.noConfusion hx)]
        by_cases hcj : (cjF nfkc dc g (.obj fs)).2 = true
        · rw [if_pos hcj, ih g _ true (hsetHas _) hrest, hset]
        · rw [if_neg hcj, ih g _ ch hcur hrest]

theorem pfF_preserve_key (nfkc : List Char → List Char) (dc : List Char)
    (rest : List (List Char × JsonValue)) (fuel : Nat)
    (cur : List (List Char × JsonValue)) (ch : Bool) (k : List Char)
    (hk : k ∉ rest.map Prod.fst) (hcur : hasKey cur k = true) :
    lookupKey (pfF nfkc dc fuel rest cur ch).1 k = lookupKey cur k := by
  by_cases hkc : k = consentKey
  · subst hkc
    exact pfF_consent_present nfkc dc rest fuel cur ch hcur hk
  · exact pfF_lookup_other nfkc dc rest fuel cur ch k hk hkc

theorem injectionFires_nil (nfkc : List Char → List Char) :
    injectionFires nfkc [] = false := rfl

theorem injectionFires_cons (nfkc : List Char → List Char) (key : List Char)
    (item : JsonValue) (rest : List (List Char × JsonValue)) :
    injectionFires nfkc ((key, item) :: rest) =
      ((decide (key = ptrKey) && pointerTierFlag nfkc item) ||
        injectionFires nfkc rest) := by
  simp [injectionFires, List.any_cons]

theorem pfF_consent_absent (nfkc : List Char → List Char) (dc : List Char) :
    ∀ (sn : List (List Char × JsonValue)) fuel cur ch, sn.length ≤ fuel →
      hasKey cur consentKey = false → consentKey ∉ sn.map Prod.fst →
      lookupKey (pfF nfkc dc fuel sn cur ch).1 consentKey =
        if injectionFires nfkc sn then some (.str dc) else none := by
  intro sn
  induction sn with
  | nil =>
    intro fuel cur ch _ hcur _
    rw [injectionFires_nil, if_neg (by simp)]
    cases fuel with
    | zero => exact lookup_none_of_hasKey_false cur consentKey hcur
    | succ g => exact lookup_none_of_hasKey_false cur consentKey hcur
  | cons kv rest ih =>
    intro fuel cur ch hlen hcur hsn
    obtain ⟨key, item⟩ := kv
    rw [List.map_cons, List.mem_cons] at hsn
    push_neg at hsn
    obtain ⟨hkeyc, hrest⟩ := hsn
    have hkeyc' : consentKey ≠ key := hkeyc
    have hkeyc'' : key ≠ consentKey := fun hx => hkeyc hx.symm
    rw [List.length_cons] at hlen
    obtain ⟨g, rfl⟩ : ∃ g, fuel = g + 1 := ⟨fuel - 1, by omega⟩
    have hlg : rest.length ≤ g := by omega
    rw [injectionFires_cons]
    have habsent : ∀ w, hasKey (setKey cur key w) consentKey = false := by
      intro w
      rw [hasKey_setKey, hcur]
      simp [hkeyc'']
    cases item with
    | str s =>
      rw [pfF_cons_str]
      by_cases hup : (canonicalise_pointer nfkc s).2 = true
      · by_cases hkp : key = ptrKey
        · rw [if_pos hup, if_pos ⟨hkp, habsent _⟩,
            pfF_consent_present nfkc dc rest g _ true
              (by rw [hasKey_setKey]; simp) hrest,
            lookupKey_setKey_self]
          have hfire : (decide (key = ptrKey) &&
              pointerTierFlag nfkc (.str s)) = true := by
            simp [hkp, pointerTierFlag, hup]
          rw [hfire]
          simp
        · rw [if_pos hup, if_neg (fun hx => hkp hx.1),
            ih g _ true hlg (habsent _) hrest]
          have hfire : (decide (key = ptrKey) &&
              pointerTierFlag nfkc (.str s)) = false := by
            simp [hkp]
          rw [hfire]
          simp
      · have hup' : (canonicalise_pointer nfkc s).2 = false := by
          rwa [Bool.not_eq_true] at hup
        have hfire : (decide (key = ptrKey) &&
            pointerTierFlag nfkc (.str s)) = false := by
          simp [pointerTierFlag, hup']
        rw [if_neg hup, hfire]
        by_cases hct : (canonicalise_text nfkc s).2 = true
        · rw [if_pos hct, ih g _ true hlg (habsent _) hrest]
          simp
        · rw [if_neg hct, ih g _ ch hlg hcur hrest]
          simp
    | null =>
      rw [pfF_cons_notstr nfkc dc g key .null rest cur ch
        (fun s hx => JsonValue.noConfusion hx)]
      have hfire : (decide (key = ptrKey) &&
          pointerTierFlag nfkc .null) = false := by simp [pointerTierFlag]
      rw [hfire]
      by_cases hcj : (cjF nfkc dc g .null).2 = true
      · rw [if_pos hcj, ih g _ true hlg (habsent _) hrest]
        simp
      · rw [if_neg hcj, ih g _ ch hlg hcur hrest]
        simp
    | bool b =>
      rw [pfF_cons_notstr nfkc dc g key (.bool b) rest cur ch
        (fun s hx => JsonValue.noConfusion hx)]
      have hfire : (decide (key = ptrKey) &&
          pointerTierFlag nfkc (.bool b)) = false := by simp [pointerTierFlag]
      rw [hfire]
      by_cases hcj : (cjF nfkc dc g (.bool b)).2 = true
      · rw [if_pos hcj, ih g _ true hlg (habsent _) hrest]
        simp
      · rw [if_neg hcj, ih g _ ch hlg hcur hrest]
        simp
    | num n =>
      rw [pfF_cons_notstr nfkc dc g key (.num n) rest cur ch
        (fun s hx => JsonValue.noConfusion hx)]
      have hfire : (decide (key = ptrKey) &&
          pointerTierFlag nfkc (.num n)) = false := by simp [pointerTierFlag]
      rw [hfire]
      by_cases hcj : (cjF nfkc dc g (.num n)).2 = true
      · rw [if_pos hcj, ih g _ true hlg (habsent _) hrest]
        simp
      · rw [if_neg hcj, ih g _ ch hlg hcur hrest]
        simp
    | arr l =>
      rw [pfF_cons_notstr nfkc dc g key (.arr l) rest cur ch
        (fun s hx => JsonValue.noConfusion hx)]
      have hfire : (decide (key = ptrKey) &&
          pointerTierFlag nfkc (.arr l)) = false := by simp [pointerTierFlag]
      rw [hfire]
      by_cases hcj : (cjF nfkc dc g (.arr l)).2 = true
      · rw [if_pos hcj, ih g _ true hlg (habsent _) hrest]
        simp
      · rw [if_neg hcj, ih g _ ch hlg hcur hrest]
        simp
    | obj fs =>
      rw [pfF_cons_notstr nfkc dc g key (.obj fs) rest cur ch
        (fun s hx => JsonValue.noConfusion hx)]
      have hfire : (decide (key = ptrKey) &&
          pointerTierFlag nfkc (.obj fs)) = false := by simp [pointerTierFlag]
      rw [hfire]
      by_cases hcj : (cjF nfkc dc g (.obj fs)).2 = true
      · rw [if_pos hcj, ih g _ true hlg (habsent _) hrest]
        simp
      · rw [if_neg hcj, ih g _ ch hlg hcur hrest]
        simp

theorem tierValue_str (nfkc : List Char → List Char) (dc : List Char)
    (s : List Char) :
    tierValue nfkc dc (.str s) =
      if (canonicalise_pointer nfkc s).2 then
        .str (canonicalise_pointer nfkc s).1
      else .str (canonicalise_text nfkc s).1 := rfl

theorem tierValue_notstr (nfkc : List Char → List Char) (dc : List Char)
    (item : JsonValue) (h : ∀ s, item ≠ .str s) :
    tierValue nfkc dc item = (canonicalise_json nfkc dc item).1 := by
  cases item with
  | str s => exact absurd rfl (h s)
  | null => rfl
  | bool b => rfl
  | num n => rfl
  | arr l => rfl
  | obj fs => rfl

theorem pfF_cons_null (nfkc : List Char → List Char) (dc : List Char)
    (fuel : Nat) (key : List Char) (rest cur : List (List Char × JsonValue))
    (ch : Bool) :
    pfF nfkc dc (fuel + 1) ((key, .null) :: rest) cur ch =
      if (cjF nfkc dc fuel .null).2 then
        pfF nfkc dc fuel rest (setKey cur key (cjF nfkc dc fuel .null).1) true
      else pfF nfkc dc fuel rest cur ch := rfl

theorem pfF_cons_bool (nfkc : List Char → List Char) (dc : List Char)
    (fuel : Nat) (key : List Char) (b : Bool)
    (rest cur : List (List Char × JsonValue)) (ch : Bool) :
    pfF nfkc dc (fuel + 1) ((key, .bool b) :: rest) cur ch =
      if (cjF nfkc dc fuel (.bool b)).2 then
        pfF nfkc dc fuel rest
          (setKey cur key (cjF nfkc dc fuel (.bool b)).1) true
      else pfF nfkc dc fuel rest cur ch := rfl

theorem pfF_cons_num (nfkc : List Char → List Char) (dc : List Char)
    (fuel : Nat) (key : List Char) (n : Int)
    (rest cur : List (List Char × JsonValue)) (ch : Bool) :
    pfF nfkc dc (fuel + 1) ((key, .num n) :: rest) cur ch =
      if (cjF nfkc dc fuel (.num n)).2 then
        pfF nfkc dc fuel rest
          (setKey cur key (cjF nfkc dc fuel (.num n)).1) true
      else pfF nfkc dc fuel rest cur ch := rfl

theorem pfF_cons_arr (nfkc : List Char → List Char) (dc : List Char)
    (fuel : Nat) (key : List Char) (l : List JsonValue)
    (rest cur : List (List Char × JsonValue)) (ch : Bool) :
    pfF nfkc dc (fuel + 1) ((key, .arr l) :: rest) cur ch =
      if (cjF nfkc dc fuel (.arr l)).2 then
        pfF nfkc dc fuel rest
          (setKey cur key (cjF nfkc dc fuel (.arr l)).1) true
      else pfF nfkc dc fuel rest cur ch := rfl

theorem pfF_cons_obj (nfkc : List Char → List Char) (dc : List Char)
    (fuel : Nat) (key : List Char) (fs : List (List Char × JsonValue))
    (rest cur : List (List Char × JsonValue)) (ch : Bool) :
    pfF nfkc dc (fuel + 1) ((key, .obj fs) :: rest) cur ch =
      if (cjF nfkc dc fuel (.obj fs)).2 then
        pfF nfkc dc fuel rest
          (setKey cur key (cjF nfkc dc fuel (.obj fs)).1) true
      else pfF nfkc dc fuel rest cur ch := rfl

theorem tierValue_null (nfkc : List Char → List Char) (dc : List Char) :
    tierValue nfkc dc .null = (canonicalise_json nfkc dc .null).1 := rfl

theorem tierValue_bool (nfkc : List Char → List Char) (dc : List Char)
    (b : Bool) :
    tierValue nfkc dc (.bool b) = (canonicalise_json nfkc dc (.bool b)).1 := rfl

theorem tierValue_num (nfkc : List Char → List Char) (dc : List Char)
    (n : Int) :
    tierValue nfkc dc (.num n) = (canonicalise_json nfkc dc (.num n)).1 := rfl

theorem tierValue_arr (nfkc : List Char → List Char) (dc : List Char)
    (l : List JsonValue) :
    tierValue nfkc dc (.arr l) = (canonicalise_json nfkc dc (.arr l)).1 := rfl

theorem tierValue_obj (nfkc : List Char → List Char) (dc : List Char)
    (fs : List (List Char × JsonValue)) :
    tierValue nfkc dc (.obj fs) = (canonicalise_json nfkc dc (.obj fs)).1 := rfl

theorem pfF_process_key (nfkc : List Char → List Char) (dc : List Char) :
    ∀ (sn : List (List Char × JsonValue)) fuel cur ch (k : List Char)
      (v : JsonValue), jsizeF sn ≤ fuel → (sn.map Prod.fst).Nodup →
      (k, v) ∈ sn → lookupKey cur k = some v →
      lookupKey (pfF nfkc dc fuel sn cur ch).1 k =
        some (tierValue nfkc dc v) := by
  intro sn
  induction sn with
  | nil =>
    intro fuel cur ch k v _ _ hm _
    cases hm
  | cons kv rest ih =>
    intro fuel cur ch k v hsz hnd hm hlook
    obtain ⟨key, item⟩ := kv
    rw [List.map_cons, List.nodup_cons] at hnd
    obtain ⟨hkeyout, hnd'⟩ := hnd
    rw [jsizeF_cons] at hsz
    have hvp := jsize_pos item
    have hfp := jsizeF_pos rest
    obtain ⟨g, rfl⟩ : ∃ g, fuel = g + 1 := ⟨fuel - 1, by omega⟩
    have hji : jsize item ≤ g := by omega
    have hrestb : jsizeF rest ≤ g := by omega
    rcases List.mem_cons.mp hm with heq | hmem
    · rw [Prod.mk.injEq] at heq
      obtain ⟨h1, h2⟩ := heq
      subst h1
      subst h2
      cases v
      case str s =>
        rw [pfF_cons_str, tierValue_str]
        by_cases hup : (canonicalise_pointer nfkc s).2 = true
        · rw [if_pos hup, if_pos hup]
          by_cases hinj : k = ptrKey ∧
              hasKey (setKey cur k
                (.str (canonicalise_pointer nfkc s).1)) consentKey = false
          · have hkc : k ≠ consentKey := by
              rw [hinj.1]
              exact ptrKey_ne_consentKey
            rw [if_pos hinj,
              pfF_preserve_key nfkc dc rest g _ true k hkeyout
                (by rw [hasKey_setKey, hasKey_setKey]; simp),
              lookupKey_setKey_other _ _ _ _ hkc, lookupKey_setKey_self]
          · rw [if_neg hinj,
              pfF_preserve_key nfkc dc rest g _ true k hkeyout
                (by rw [hasKey_setKey]; simp),
              lookupKey_setKey_self]
        · rw [if_neg hup, if_neg hup]
          by_cases hct : (canonicalise_text nfkc s).2 = true
          · rw [if_pos hct,
              pfF_preserve_key nfkc dc rest g _ true k hkeyout
                (by rw [hasKey_setKey]; simp),
              lookupKey_setKey_self]
          · have hct' : (canonicalise_text nfkc s).2 = false := by
              rwa [Bool.not_eq_true] at hct
            rw [if_neg hct,
              pfF_preserve_key nfkc dc rest g _ ch k hkeyout
                (hasKey_of_lookup _ _ _ hlook),
              hlook, text_unchanged nfkc s hct']
      all_goals (
        first
        | rw [pfF_cons_null nfkc dc g k rest cur ch, tierValue_null]
        | rw [pfF_cons_bool nfkc dc g k _ rest cur ch, tierValue_bool]
        | rw [pfF_cons_num nfkc dc g k _ rest cur ch, tierValue_num]
        | rw [pfF_cons_arr nfkc dc g k _ rest cur ch, tierValue_arr]
        | rw [pfF_cons_obj nfkc dc g k _ rest cur ch, tierValue_obj]
        rw [canonicalise_json_eq_cjF nfkc dc _ g hji]
        split
        next hcj =>
          rw [pfF_preserve_key nfkc dc rest g _ true k hkeyout
              (by rw [hasKey_setKey]; simp),
            lookupKey_setKey_self]
        next hcj =>
          rw [Bool.not_eq_true] at hcj
          rw [pfF_preserve_key nfkc dc rest g _ ch k hkeyout
              (hasKey_of_lookup _ _ _ hlook),
            hlook, (walker_unchanged nfkc dc g).1 _ hcj])
    · have hkne : key ≠ k := by
        intro hx
        subst hx
        exact hkeyout (List.mem_map.mpr ⟨(key, v), hmem, rfl⟩)
      have hlook' : ∀ w, lookupKey (setKey cur key w) k = some v := by
        intro w
        rw [lookupKey_setKey_other _ _ _ _ (Ne.symm hkne), hlook]
      cases item
      case str s =>
        rw [pfF_cons_str]
        by_cases hup : (canonicalise_pointer nfkc s).2 = true
        · rw [if_pos hup]
          by_cases hinj : key = ptrKey ∧
              hasKey (setKey cur key
                (.str (canonicalise_pointer nfkc s).1)) consentKey = false
          · have hkc : k ≠ consentKey := by
              intro hx
              subst hx
              have h1 : hasKey cur consentKey = true :=
                hasKey_of_lookup _ _ _ hlook
              have h2 := hinj.2
              rw [hasKey_setKey, h1] at h2
              simp at h2
            refine ih g _ true k v hrestb hnd' hmem ?_
            rw [if_pos hinj, lookupKey_setKey_other _ _ _ _ hkc, hlook' _]
          · refine ih g _ true k v hrestb hnd' hmem ?_
            rw [if_neg hinj, hlook' _]
        · rw [if_neg hup]
          by_cases hct : (canonicalise_text nfkc s).2 = true
          · rw [if_pos hct]
            exact ih g _ true k v hrestb hnd' hmem (hlook' _)
          · rw [if_neg hct]
            exact ih g _ ch k v hrestb hnd' hmem hlook
      all_goals (
        first
        | rw [pfF_cons_null nfkc dc g key rest cur ch]
        | rw [pfF_cons_bool nfkc dc g key _ rest cur ch]
        | rw [pfF_cons_num nfkc dc g key _ rest cur ch]
        | rw [pfF_cons_arr nfkc dc g key _ rest cur ch]
        | rw [pfF_cons_obj nfkc dc g key _ rest cur ch]
        split
        next hcj => exact ih g _ true k v hrestb hnd' hmem (hlook' _)
        next hcj => exact ih g _ ch k v hrestb hnd' hmem hlook)

theorem jsize_str (s : List Char) : jsize (.str s) = 1 := rfl

theorem jsize_arr (items : List JsonValue) :
    jsize (.arr items) = 1 + jsizeL items := rfl

theorem jsize_obj (fields : List (List Char × JsonValue)) :
    jsize (.obj fields) = 1 + jsizeF fields := rfl

theorem jsizeF_ge_length (sn : List (List Char × JsonValue)) :
    sn.length ≤ jsizeF sn := by
  induction sn with
  | nil => simp [jsizeF]
  | cons kv rest ih =>
    obtain ⟨k, v⟩ := kv
    rw [jsizeF_cons, List.length_cons]
    have := jsize_pos v
    omega

theorem jsizeL_gt_length (l : List JsonValue) : l.length < jsizeL l := by
  induction l with
  | nil => simp [jsizeL]
  | cons v rest ih =>
    rw [jsizeL_cons, List.length_cons]
    have := jsize_pos v
    omega

theorem mem_of_lookup (fs : List (List Char × JsonValue)) (k : List Char)
    (v : JsonValue) (h : lookupKey fs k = some v) : (k, v) ∈ fs := by
  unfold lookupKey at h
  rw [Option.map_eq_some'] at h
  obtain ⟨kv, hfind, hsnd⟩ := h
  have hm := List.mem_of_find?_eq_some hfind
  have hp := List.find?_some hfind
  rw [decide_eq_true_eq] at hp
  have : kv = (k, v) := by
    obtain ⟨k0, v0⟩ := kv
    simp only at hp hsnd
    rw [hp, hsnd]
  rw [this] at hm
  exact hm

theorem findIterF_no_lt (fuel : Nat) (s : List Char) (h : '<' ∉ s) :
    findIterF fuel s = ([], s) := by
  induction s generalizing fuel with
  | nil => cases fuel <;> rfl
  | cons c rest ih =>
    cases fuel with
    | zero => rfl
    | succ g =>
      rw [findIterF_succ_cons,
        headMatch_none_of_not_lt c rest
          (fun hx => h (hx ▸ List.mem_cons_self _ _)),
        ih g fun hm => h (List.mem_cons_of_mem _ hm)]

theorem headMatch_blocked (i : List Char) (h2 : '>' ∉ i)
    (h3 : (∃ c ∈ i, isSpace c = true) ∨ 255 < i.length) :
    headMatch ('<' :: '@' :: (i ++ ['>'])) = none := by
  rw [headMatch_cons2, if_pos ⟨rfl, rfl⟩]
  rw [if_neg]
  rintro ⟨hr1, hr2, hr3⟩
  have hrlt : ((i ++ ['>']).takeWhile isTokChar).length < i.length := by
    rcases h3 with ⟨c, hc, hcs⟩ | hlong
    · obtain ⟨i1, i2, rfl⟩ := List.append_of_mem hc
      have hcf : isTokChar c = false := by
        unfold isTokChar
        simp [hcs]
      have hle : (((i1 ++ c :: i2) ++ ['>']).takeWhile isTokChar).length ≤
          i1.length := by
        rw [List.append_assoc, List.cons_append]
        exact takeWhile_length_le_of_false isTokChar i1 (i2 ++ ['>']) c hcf
      simp only [List.length_append, List.length_cons]
      omega
    · omega
  have hi : i[((i ++ ['>']).takeWhile isTokChar).length]? = some '>' := by
    rw [← List.getElem?_append_left hrlt]
    exact hr3
  exact h2 (List.getElem?_mem hi)

theorem findIter_blocked (i : List Char) (h1 : '<' ∉ i) (h2 : '>' ∉ i)
    (h3 : (∃ c ∈ i, isSpace c = true) ∨ 255 < i.length) :
    findIter ('<' :: '@' :: (i ++ ['>'])) =
      ([], '<' :: '@' :: (i ++ ['>'])) := by
  unfold findIter
  have hlen : ('<' :: '@' :: (i ++ ['>'])).length = i.length + 3 := by simp
  rw [hlen]
  have h3' : i.length + 3 = (i.length + 2) + 1 := by omega
  rw [h3', findIterF_succ_cons, headMatch_blocked i h2 h3,
    findIterF_no_lt (i.length + 2) ('@' :: (i ++ ['>']))
      (by
        simp only [List.mem_cons, List.mem_append, List.mem_singleton]
        rintro (hx | hx | hx | hx)
        · cases hx
        · exact h1 hx
        · cases hx
        · cases hx)]

theorem piF_map_str (nfkc : List Char → List Char) (dc : List Char) :
    ∀ (ss : List (List Char)) fuel, ss.length < fuel →
      piF nfkc dc fuel (ss.map .str) =
        (ss.map fun s => .str (canonicalise_text nfkc s).1,
          ss.any fun s => (canonicalise_text nfkc s).2) := by
  intro ss
  induction ss with
  | nil =>
    intro fuel _
    cases fuel <;> rfl
  | cons s rest ih =>
    intro fuel hlen
    rw [List.length_cons] at hlen
    obtain ⟨g, rfl⟩ : ∃ g, fuel = g + 1 := ⟨fuel - 1, by omega⟩
    have hg : 1 ≤ g := by omega
    obtain ⟨g2, rfl⟩ : ∃ g2, g = g2 + 1 := ⟨g - 1, by omega⟩
    rw [List.map_cons, piF_cons, cjF_str, ih (g2 + 1) (by omega),
      List.map_cons, List.any_cons]
    refine congrArg₂ Prod.mk (congrArg₂ List.cons ?_ rfl) rfl
    by_cases hct : (canonicalise_text nfkc s).2 = true
    · rw [if_pos hct]
    · rw [if_neg hct]
      rw [Bool.not_eq_true] at hct
      rw [text_unchanged nfkc s hct]

/-- C4 (amended): in an object with distinct keys, the `consent` key ends
up holding the default consent level exactly when some field is keyed
`"pointer"`, holds a string the exact-match tier changes, and the object
had no `consent` key (otherwise a consent-less object stays consent-less);
an object that already has a `consent` key never has it overwritten by the
injection — but its value is still processed like any other field, through
the exact-match tier with substring fallback for strings and the recursive
walk otherwise. -/
theorem claim4_consent_injection (nfkc : List Char → List Char)
    (dc : List Char) (fields : List (List Char × JsonValue))
    (hnd : (fields.map Prod.fst).Nodup) :
    ∃ fields' ch, canonicalise_json nfkc dc (.obj fields) = (.obj fields', ch) ∧
      (hasKey fields consentKey = false →
        lookupKey fields' consentKey =
          if injectionFires nfkc fields then some (.str dc) else none) ∧
      (∀ cv, lookupKey fields consentKey = some cv →
        lookupKey fields' consentKey = some (tierValue nfkc dc cv)) := by
  have hcj : canonicalise_json nfkc dc (.obj fields) =
      cjF nfkc dc (jsizeF fields + 1) (.obj fields) :=
    canonicalise_json_eq_cjF nfkc dc _ _ (by rw [jsize_obj]; omega)
  have habs : hasKey fields consentKey = false →
      lookupKey (pfF nfkc dc (jsizeF fields) fields fields false).1
        consentKey =
        if injectionFires nfkc fields then some (.str dc) else none :=
    fun hc => pfF_consent_absent nfkc dc fields (jsizeF fields) fields false
      (jsizeF_ge_length fields) hc
      (not_mem_keys_of_hasKey_false fields consentKey hc)
  have hpres : ∀ cv, lookupKey fields consentKey = some cv →
      lookupKey (pfF nfkc dc (jsizeF fields) fields fields false).1
        consentKey = some (tierValue nfkc dc cv) :=
    fun cv hcv => pfF_process_key nfkc dc fields (jsizeF fields) fields false
      consentKey cv le_rfl hnd (mem_of_lookup fields consentKey cv hcv) hcv
  cases hd : lookupKey (pfF nfkc dc (jsizeF fields) fields fields false).1
      domainKey with
  | some w =>
    cases w with
    | str d =>
      by_cases hlow : d.map pyLower ≠ d
      · refine ⟨setKey (pfF nfkc dc (jsizeF fields) fields fields false).1
          domainKey (.str (d.map pyLower)), true, ?_, ?_, ?_⟩
        · rw [hcj, cjF_obj_domain_str nfkc dc _ fields d hd, if_pos hlow]
        · intro hc
          rw [lookupKey_setKey_other _ _ _ _
            (Ne.symm domainKey_ne_consentKey)]
          exact habs hc
        · intro cv hcv
          rw [lookupKey_setKey_other _ _ _ _
            (Ne.symm domainKey_ne_consentKey)]
          exact hpres cv hcv
      · refine ⟨(pfF nfkc dc (jsizeF fields) fields fields false).1,
          (pfF nfkc dc (jsizeF fields) fields fields false).2, ?_, habs, hpres⟩
        rw [hcj, cjF_obj_domain_str nfkc dc _ fields d hd, if_neg hlow]
    | null =>
      exact ⟨_, _, by rw [hcj, cjF_obj_domain_not_str nfkc dc _ fields
        (by intro d hx; rw [hd] at hx; cases hx)], habs, hpres⟩
    | bool b =>
      exact ⟨_, _, by rw [hcj, cjF_obj_domain_not_str nfkc dc _ fields
        (by intro d hx; rw [hd] at hx; cases hx)], habs, hpres⟩
    | num n =>
      exact ⟨_, _, by rw [hcj, cjF_obj_domain_not_str nfkc dc _ fields
        (by intro d hx; rw [hd] at hx; cases hx)], habs, hpres⟩
    | arr l =>
      exact ⟨_, _, by rw [hcj, cjF_obj_domain_not_str nfkc dc _ fields
        (by intro d hx; rw [hd] at hx; cases hx)], habs, hpres⟩
    | obj fs =>
      exact ⟨_, _, by rw [hcj, cjF_obj_domain_not_str nfkc dc _ fields
        (by intro d hx; rw [hd] at hx; cases hx)], habs, hpres⟩
  | none =>
    exact ⟨_, _, by rw [hcj, cjF_obj_domain_not_str nfkc dc _ fields
      (by intro d hx; rw [hd] at hx; cases hx)], habs, hpres⟩

theorem claim4_witness :
    ∃ fields' ch, canonicalise_json id "private".toList
        (.obj [(ptrKey, .str "<@AGENT:x>".toList)]) = (.obj fields', ch) ∧
      lookupKey fields' consentKey = some (.str "private".toList) := by
  obtain ⟨fields', ch, heq, habs, -⟩ :=
    claim4_consent_injection id "private".toList
      [(ptrKey, .str "<@AGENT:x>".toList)] (by simp)
  refine ⟨fields', ch, heq, ?_⟩
  rw [habs rfl]
  rfl

/-- C4 counterexample: an object whose existing `consent` value is itself
a pointer token does not keep that value unchanged through the walk — the
exact-match tier rewrites it like any other string field. -/
theorem claim4_counterexample :
    canonicalise_json id "private".toList
        (.obj [(consentKey, .str "<@A:b>".toList)]) =
      (.obj [(consentKey, .str "<@a:b>".toList)], true) ∧
    "<@a:b>".toList ≠ "<@A:b>".toList := ⟨rfl, by decide⟩

/-- C9: after the key loop, an object whose current `domain` value is a
string has that value lower-cased in the output, and this fold counts as a
change exactly when the lower-cased value differs from the value present
at that point. -/
theorem claim9_domain_fold (nfkc : List Char → List Char) (dc : List Char)
    (fields : List (List Char × JsonValue)) (d : List Char)
    (h : lookupKey (pfF nfkc dc (jsizeF fields) fields fields false).1
      domainKey = some (.str d)) :
    ∃ fields', canonicalise_json nfkc dc (.obj fields) =
      (.obj fields',
        ((pfF nfkc dc (jsizeF fields) fields fields false).2 ||
          decide (d.map pyLower ≠ d))) ∧
      lookupKey fields' domainKey = some (.str (d.map pyLower)) := by
  have hcj : canonicalise_json nfkc dc (.obj fields) =
      cjF nfkc dc (jsizeF fields + 1) (.obj fields) :=
    canonicalise_json_eq_cjF nfkc dc _ _ (by rw [jsize_obj]; omega)
  by_cases hlow : d.map pyLower ≠ d
  · refine ⟨setKey (pfF nfkc dc (jsizeF fields) fields fields false).1
      domainKey (.str (d.map pyLower)), ?_, ?_⟩
    · rw [hcj, cjF_obj_domain_str nfkc dc _ fields d h, if_pos hlow,
        decide_eq_true hlow, Bool.or_true]
    · exact lookupKey_setKey_self _ _ _
  · refine ⟨(pfF nfkc dc (jsizeF fields) fields fields false).1, ?_, ?_⟩
    · rw [hcj, cjF_obj_domain_str nfkc dc _ fields d h, if_neg hlow,
        decide_eq_false hlow, Bool.or_false]
    · rw [not_not] at hlow
      rw [h, hlow]

theorem claim9_witness :
    ∃ fields', canonicalise_json id "private".toList
        (.obj [(domainKey, .str "Example.COM".toList)]) =
      (.obj fields', true) ∧
      lookupKey fields' domainKey = some (.str "example.com".toList) := by
  obtain ⟨fields', heq, hlook⟩ := claim9_domain_fold id "private".toList
    [(domainKey, .str "Example.COM".toList)] "Example.COM".toList rfl
  refine ⟨fields', ?_, ?_⟩
  · rw [heq]
    rfl
  · rw [hlook]
    rfl

/-- C10 (amended): a string reached as the top-level value or as an array
element goes only through the substring-scan tier — arrays of strings map
to their text-scanned forms with no consent injection anywhere — and a
string of the shape `<@ interior >` whose interior avoids `<` and `>` and
either contains whitespace or exceeds 255 characters is left entirely
unchanged; tokens whose interior embeds a smaller scanner match are,
however, still rewritten by the scan. -/
theorem claim10_value_tiers (nfkc : List Char → List Char) (dc : List Char) :
    (∀ s, canonicalise_json nfkc dc (.str s) =
      (.str (canonicalise_text nfkc s).1, (canonicalise_text nfkc s).2)) ∧
    (∀ ss : List (List Char),
      canonicalise_json nfkc dc (.arr (ss.map .str)) =
        (.arr (ss.map fun s => .str (canonicalise_text nfkc s).1),
          ss.any fun s => (canonicalise_text nfkc s).2)) ∧
    (∀ i : List Char, '<' ∉ i → '>' ∉ i →
      ((∃ c ∈ i, isSpace c = true) ∨ 255 < i.length) →
      canonicalise_json nfkc dc (.str ('<' :: '@' :: (i ++ ['>']))) =
        (.str ('<' :: '@' :: (i ++ ['>'])), false)) := by
  refine ⟨fun s => rfl, ?_, ?_⟩
  · intro ss
    have hcj : canonicalise_json nfkc dc (.arr (ss.map .str)) =
        cjF nfkc dc (jsizeL (ss.map .str) + 1) (.arr (ss.map .str)) :=
      canonicalise_json_eq_cjF nfkc dc _ _ (by rw [jsize_arr]; omega)
    rw [hcj, cjF_arr, piF_map_str nfkc dc ss (jsizeL (ss.map .str))
      (by
        have := jsizeL_gt_length (ss.map .str)
        rw [List.length_map] at this
        exact this)]
  · intro i h1 h2 h3
    have hstr : canonicalise_json nfkc dc
        (.str ('<' :: '@' :: (i ++ ['>']))) =
        (.str (canonicalise_text nfkc ('<' :: '@' :: (i ++ ['>']))).1,
          (canonicalise_text nfkc ('<' :: '@' :: (i ++ ['>']))).2) := rfl
    rw [hstr, canonicalise_text_eq, findIter_blocked i h1 h2 h3]
    simp

theorem claim10_witness :
    canonicalise_json id "private".toList (.str "<@a b:c>".toList) =
      (.str "<@a b:c>".toList, false) :=
  (claim10_value_tiers id "private".toList).2.2 "a b:c".toList
    (by decide) (by decide) (Or.inl ⟨' ', by decide, rfl⟩)

/-- C10 counterexample: the string `<@A:b> c>` is a single valid pointer
token containing whitespace (the exact-match tier would change it), yet as
an array element or top-level string it is not left unchanged: the
substring scan finds the embedded match `<@A:b>` and rewrites it. -/
theorem claim10_counterexample :
    canonicalise_json id "private".toList (.str "<@A:b> c>".toList) =
      (.str "<@a:b> c>".toList, true) ∧
    canonicalise_pointer id "<@A:b> c>".toList =
      ("<@a:b> c>".toList, true) ∧
    (' ' ∈ "<@A:b> c>".toList.drop 2 ∧ isSpace ' ' = true) :=
  ⟨rfl, rfl, by decide, rfl⟩

/-! ## Rescan stability: the scanner cannot distinguish canonicalised text
from its original -/

theorem charEq_isTokChar {c d : Char} (h : CharEq c d) :
    isTokChar c = isTokChar d := by
  obtain ⟨-, -, h3, h4⟩ := h
  simp only [isTokChar]
  rw [decide_eq_decide, h3, h4]

theorem f2_refl (s : List Char) : List.Forall₂ CharEq s s := by
  induction s with
  | nil => exact List.Forall₂.nil
  | cons c rest ih => exact List.Forall₂.cons (charEq_refl c) ih

theorem f2_map_pyLower (p : List Char) :
    List.Forall₂ CharEq p (p.map pyLower) := by
  induction p with
  | nil => exact List.Forall₂.nil
  | cons c rest ih => exact List.Forall₂.cons (charEq_pyLower c) ih

theorem f2_takeWhile_len {t u : List Char} (h : List.Forall₂ CharEq t u) :
    (t.takeWhile isTokChar).length = (u.takeWhile isTokChar).length := by
  induction h with
  | nil => rfl
  | @cons c d t2 u2 hcd hrest ih =>
    rw [List.takeWhile_cons, List.takeWhile_cons, charEq_isTokChar hcd]
    by_cases hd : isTokChar d = true
    · rw [if_pos hd, if_pos hd]
      simp only [List.length_cons, ih]
    · rw [if_neg hd, if_neg hd]

theorem f2_getElem_gt {t u : List Char} (h : List.Forall₂ CharEq t u) :
    ∀ r : Nat, (t[r]? = some '>') ↔ (u[r]? = some '>') := by
  induction h with
  | nil => intro r; simp
  | @cons c d t2 u2 hcd hrest ih =>
    intro r
    cases r with
    | zero =>
      simp only [List.getElem?_cons_zero, Option.some_inj]
      exact hcd.2.2.1
    | succ n =>
      simp only [List.getElem?_cons_succ]
      exact ih n

theorem headMatch_resp {s w : List Char} (h : List.Forall₂ CharEq s w) :
    headMatch s = headMatch w := by
  cases h with
  | nil => rfl
  | @cons c1 d1 s2 w2 h1 h2 =>
    cases h2 with
    | nil => rfl
    | @cons c2 d2 t u h3 h4 =>
      rw [headMatch_cons2, headMatch_cons2]
      have hcond : (c1 = '<' ∧ c2 = '@') ↔ (d1 = '<' ∧ d2 = '@') :=
        and_congr h1.1 h3.2.1
      by_cases hc : c1 = '<' ∧ c2 = '@'
      · rw [if_pos hc, if_pos (hcond.mp hc)]
        have hlen := f2_takeWhile_len h4
        rw [hlen]
        have hidx := f2_getElem_gt h4 ((u.takeWhile isTokChar).length)
        have hiff : (1 ≤ (u.takeWhile isTokChar).length ∧
            (u.takeWhile isTokChar).length ≤ 255 ∧
            t[(u.takeWhile isTokChar).length]? = some '>') ↔
            (1 ≤ (u.takeWhile isTokChar).length ∧
            (u.takeWhile isTokChar).length ≤ 255 ∧
            u[(u.takeWhile isTokChar).length]? = some '>') :=
          and_congr Iff.rfl (and_congr Iff.rfl hidx)
        by_cases h5 : 1 ≤ (u.takeWhile isTokChar).length ∧
            (u.takeWhile isTokChar).length ≤ 255 ∧
            t[(u.takeWhile isTokChar).length]? = some '>'
        · rw [if_pos h5, if_pos (hiff.mp h5)]
        · rw [if_neg h5, if_neg fun hx => h5 (hiff.mpr hx)]
      · rw [if_neg hc, if_neg fun hx => hc (hcond.mpr hx)]

theorem findIterF_resp :
    ∀ fuel (s w : List Char), List.Forall₂ CharEq s w →
      List.Forall₂ (fun p q => List.Forall₂ CharEq p.1 q.1 ∧
          List.Forall₂ CharEq p.2 q.2)
        (findIterF fuel s).1 (findIterF fuel w).1 ∧
      List.Forall₂ CharEq (findIterF fuel s).2 (findIterF fuel w).2 := by
  intro fuel
  induction fuel with
  | zero =>
    intro s w h
    cases h with
    | nil => exact ⟨List.Forall₂.nil, List.Forall₂.nil⟩
    | @cons c d s2 w2 h1 h2 =>
      exact ⟨List.Forall₂.nil, List.Forall₂.cons h1 h2⟩
  | succ fuel ih =>
    intro s w h
    cases h with
    | nil => exact ⟨List.Forall₂.nil, List.Forall₂.nil⟩
    | @cons c d s2 w2 h1 h2 =>
      rw [findIterF_succ_cons, findIterF_succ_cons]
      have hhm : headMatch (c :: s2) = headMatch (d :: w2) :=
        headMatch_resp (List.Forall₂.cons h1 h2)
      cases hm : headMatch (d :: w2) with
      | some r =>
        rw [hhm, hm]
        have htk : List.Forall₂ CharEq (List.take (r + 3) (c :: s2))
            (List.take (r + 3) (d :: w2)) :=
          List.forall₂_take _ (List.Forall₂.cons h1 h2)
        have hdr : List.Forall₂ CharEq (List.drop (r + 3) (c :: s2))
            (List.drop (r + 3) (d :: w2)) :=
          List.forall₂_drop _ (List.Forall₂.cons h1 h2)
        obtain ⟨ihp, iht⟩ := ih _ _ hdr
        exact ⟨List.Forall₂.cons ⟨List.Forall₂.nil, htk⟩ ihp, iht⟩
      | none =>
        rw [hhm, hm]
        obtain ⟨ihp, iht⟩ := ih _ _ h2
        cases hps : (findIterF fuel s2).1 with
        | nil =>
          rw [hps] at ihp
          have hw : (findIterF fuel w2).1 = [] :=
            List.forall₂_nil_left_iff.mp ihp
          rw [hw]
          exact ⟨List.Forall₂.nil, List.Forall₂.cons h1 iht⟩
        | cons gm ps =>
          obtain ⟨g, m⟩ := gm
          rw [hps] at ihp
          cases hq : (findIterF fuel w2).1 with
          | nil =>
            rw [hq] at ihp
            cases ihp
          | cons gm2 qs =>
            obtain ⟨g2, m2⟩ := gm2
            rw [hq] at ihp
            cases ihp with
            | cons hgm hrest =>
              exact ⟨List.Forall₂.cons
                ⟨List.Forall₂.cons h1 hgm.1, hgm.2⟩ hrest, iht⟩

theorem f2_flattenPairs {P Q : List (List Char × List Char)}
    (h : List.Forall₂ (fun p q => List.Forall₂ CharEq p.1 q.1 ∧
        List.Forall₂ CharEq p.2 q.2) P Q) :
    List.Forall₂ CharEq (flattenPairs P) (flattenPairs Q) := by
  induction h with
  | nil => exact List.Forall₂.nil
  | @cons p q P2 Q2 hpq hrest ih =>
    obtain ⟨g, m⟩ := p
    obtain ⟨g2, m2⟩ := q
    rw [flattenPairs_cons, flattenPairs_cons]
    exact List.rel_append (List.rel_append hpq.1 hpq.2) ih

theorem f2_map_self {α : Type} (R : α → α → Prop) (f : α → α) :
    ∀ P : List α, (∀ x ∈ P, R x (f x)) → List.Forall₂ R P (P.map f) := by
  intro P
  induction P with
  | nil => intro h; exact List.Forall₂.nil
  | cons x rest ih =>
    intro h
    exact List.Forall₂.cons (h x (List.mem_cons_self _ _))
      (ih fun y hy => h y (List.mem_cons_of_mem _ hy))

theorem f2_len_map {P Q : List (List Char × List Char)}
    (f : List Char × List Char → List Char × List Char)
    (h : List.Forall₂ (fun p q => List.Forall₂ CharEq p.1 q.1 ∧
        List.Forall₂ CharEq p.2 q.2) P Q)
    (hf : ∀ p ∈ P, (f p).1.length = p.1.length ∧
      (f p).2.length = p.2.length) :
    List.Forall₂ (fun p q => p.1.length = q.1.length ∧
      p.2.length = q.2.length) (P.map f) Q := by
  induction h with
  | nil => exact List.Forall₂.nil
  | @cons p q P2 Q2 hpq hrest ih =>
    have h1 := hf p (List.mem_cons_self _ _)
    refine List.Forall₂.cons ⟨?_, ?_⟩
      (ih fun x hx => hf x (List.mem_cons_of_mem _ hx))
    · rw [h1.1, hpq.1.length_eq]
    · rw [h1.2, hpq.2.length_eq]

theorem flattenPairs_inj :
    ∀ {P Q : List (List Char × List Char)},
      List.Forall₂ (fun p q => p.1.length = q.1.length ∧
        p.2.length = q.2.length) P Q →
      ∀ t u : List Char, flattenPairs P ++ t = flattenPairs Q ++ u →
      P = Q ∧ t = u := by
  intro P Q h
  induction h with
  | nil =>
    intro t u he
    exact ⟨rfl, by simpa [flattenPairs] using he⟩
  | @cons p q P2 Q2 hpq hrest ih =>
    intro t u he
    obtain ⟨g, m⟩ := p
    obtain ⟨g2, m2⟩ := q
    obtain ⟨hl1, hl2⟩ := hpq
    have hl1g : g.length = g2.length := hl1
    have hl2m : m.length = m2.length := hl2
    have hea : (g ++ m) ++ (flattenPairs P2 ++ t) =
        (g2 ++ m2) ++ (flattenPairs Q2 ++ u) := by
      rw [flattenPairs_cons, flattenPairs_cons] at he
      simp only [List.append_assoc] at he ⊢
      exact he
    have hlen : (g ++ m).length = (g2 ++ m2).length := by
      simp only [List.length_append]
      omega
    obtain ⟨hgm, he2⟩ := List.append_inj hea hlen
    obtain ⟨hg, hm⟩ := List.append_inj hgm hl1g
    obtain ⟨hPQ, htu⟩ := ih t u he2
    subst hg
    subst hm
    subst hPQ
    exact ⟨rfl, htu⟩

theorem matchShape_decomp (m : List Char) (h : matchShapeB m = true) :
    ∃ i, m = '<' :: '@' :: (i ++ ['>']) ∧ (∀ c ∈ i, isTokChar c = true) ∧
      1 ≤ i.length ∧ i.length ≤ 255 := by
  cases m with
  | nil => simp [matchShapeB] at h
  | cons c1 rest =>
    cases rest with
    | nil => simp [matchShapeB] at h
    | cons c2 t =>
      unfold matchShapeB at h
      simp only [Bool.and_eq_true, decide_eq_true_eq,
        List.all_eq_true] at h
      obtain ⟨⟨⟨⟨⟨rfl, rfl⟩, hall⟩, h1⟩, h2⟩, hlast⟩ := h
      have htne : t ≠ [] := by
        intro hx
        rw [hx] at hlast
        cases hlast
      have hdec := List.dropLast_append_getLast htne
      have hgt : t.getLast htne = '>' := by
        rw [List.getLast?_eq_getLast t htne] at hlast
        exact Option.some_inj.mp hlast
      refine ⟨t.dropLast, ?_, fun c hc => hall c hc, h1, h2⟩
      rw [hgt] at hdec
      rw [hdec]

theorem tok_ne_cr (c : Char) (h : isTokChar c = true) : c ≠ '\r' := by
  intro hx
  subst hx
  exact absurd h (by decide)

theorem match_no_cr (m : List Char) (h : matchShapeB m = true) :
    '\r' ∉ m := by
  obtain ⟨i, hm, hall, -, -⟩ := matchShape_decomp m h
  rw [hm]
  intro hmem
  rcases List.mem_cons.mp hmem with h1 | hm2
  · exact absurd h1 (by decide)
  rcases List.mem_cons.mp hm2 with h2 | hm3
  · exact absurd h2 (by decide)
  rcases List.mem_append.mp hm3 with h3 | h4
  · exact tok_ne_cr _ (hall _ h3) rfl
  · rcases List.mem_cons.mp h4 with h5 | h6
    · exact absurd h5 (by decide)
    · cases h6

theorem pyLower_tok (c : Char) (h : isTokChar c = true) :
    isTokChar (pyLower c) = true := by
  rw [← charEq_isTokChar (charEq_pyLower c)]
  exact h

theorem map_pyLower_no_colon (p : List Char) (hp : ':' ∉ p) :
    ':' ∉ p.map pyLower := by
  intro hm
  obtain ⟨c, hc, he⟩ := List.mem_map.mp hm
  rw [pyLower_eq_iff c ':' (by decide) (by decide)] at he
  exact hp (he ▸ hc)

theorem map_pyLower_idem (p : List Char) :
    (p.map pyLower).map pyLower = p.map pyLower := by
  rw [List.map_map]
  exact List.map_congr_left fun c hc => pyLower_idem c

theorem cp_match (nfkc : List Char → List Char) (hn : ∀ s, nfkc s = s)
    (m : List Char) (h : matchShapeB m = true) :
    List.Forall₂ CharEq m ((canonicalise_pointer nfkc m).1) ∧
    canonicalise_pointer nfkc ((canonicalise_pointer nfkc m).1) =
      ((canonicalise_pointer nfkc m).1, false) := by
  obtain ⟨i, hm, hall, hi1, hi2⟩ := matchShape_decomp m h
  have hcr : '\r' ∉ m := match_no_cr m h
  have hcm : crlf (nfkc m) = m := by
    rw [hn m]
    exact crlf_of_no_cr m hcr
  rcases cp_cases nfkc m with hc | ⟨p, r, hs, hp, hl⟩
  · constructor
    · rw [hc]
      exact f2_refl m
    · rw [hc]
      exact hc
  · have hmeq : m = '<' :: '@' :: (p ++ ':' :: (r ++ ['>'])) := by
      rw [← hcm]
      exact hs
    have hcp := cp_valid nfkc m p r hs hp hl
    have h1 : (canonicalise_pointer nfkc m).1 =
        '<' :: '@' :: (p.map pyLower ++ ':' :: (r ++ ['>'])) := by
      rw [hcp]
    have hieq : i = p ++ ':' :: r := by
      have he : '<' :: '@' :: (i ++ ['>']) =
          '<' :: '@' :: (p ++ ':' :: (r ++ ['>'])) := by
        rw [← hm, hmeq]
      have h2 : i ++ ['>'] = p ++ ':' :: (r ++ ['>']) := by
        have h5 := he
        simp only [List.cons.injEq, true_and] at h5
        exact h5
      have h3 : i ++ ['>'] = (p ++ ':' :: r) ++ ['>'] := by
        rw [h2]
        simp
      exact (List.append_inj' h3 rfl).1
    have hallO : ∀ c ∈ p.map pyLower ++ ':' :: r, isTokChar c = true := by
      intro c hc2
      rcases List.mem_append.mp hc2 with hin | hin
      · obtain ⟨x, hx, rfl⟩ := List.mem_map.mp hin
        exact pyLower_tok x (hall x
          (by rw [hieq]; exact List.mem_append.mpr (Or.inl hx)))
      · exact hall c (by rw [hieq]; exact List.mem_append.mpr (Or.inr hin))
    have hOcr : '\r' ∉ ('<' :: '@' ::
        (p.map pyLower ++ ':' :: (r ++ ['>']))) := by
      intro hmem
      rcases List.mem_cons.mp hmem with hx | hmem2
      · exact absurd hx (by decide)
      rcases List.mem_cons.mp hmem2 with hx | hmem3
      · exact absurd hx (by decide)
      rcases List.mem_append.mp hmem3 with hx | hmem4
      · exact tok_ne_cr _ (hallO _ (List.mem_append.mpr (Or.inl hx))) rfl
      rcases List.mem_cons.mp hmem4 with hx | hmem5
      · exact absurd hx (by decide)
      rcases List.mem_append.mp hmem5 with hx | hmem6
      · exact tok_ne_cr _ (hallO _ (List.mem_append.mpr
          (Or.inr (List.mem_cons_of_mem _ hx)))) rfl
      rcases List.mem_cons.mp hmem6 with hx | hmem7
      · exact absurd hx (by decide)
      · cases hmem7
    have hOcrlf : crlf (nfkc ('<' :: '@' ::
        (p.map pyLower ++ ':' :: (r ++ ['>'])))) =
        '<' :: '@' :: (p.map pyLower ++ ':' :: (r ++ ['>'])) := by
      rw [hn _]
      exact crlf_of_no_cr _ hOcr
    have hlO : (crlf (nfkc ('<' :: '@' ::
        (p.map pyLower ++ ':' :: (r ++ ['>']))))).length ≤ 256 := by
      rw [hOcrlf]
      have hle : ('<' :: '@' ::
          (p.map pyLower ++ ':' :: (r ++ ['>']))).length =
          (crlf (nfkc m)).length := by
        rw [hcm, hmeq]
        simp
      omega
    have hcpO := cp_valid nfkc _ (p.map pyLower) r hOcrlf
      (map_pyLower_no_colon p hp) hlO
    rw [map_pyLower_idem] at hcpO
    constructor
    · rw [h1, hmeq]
      exact List.Forall₂.cons (charEq_refl _) (List.Forall₂.cons
        (charEq_refl _) (List.rel_append (f2_map_pyLower p)
          (List.Forall₂.cons (charEq_refl _) (f2_refl _))))
    · rw [h1, hcpO]
      simp

/-- C2 (amended): when NFKC normalisation is the identity (as on all ASCII
text), `canonicalise_pointer` re-applied to its own output returns that
output unchanged with `changed = false` provided the output is a fixpoint
of the CRLF-to-LF replacement, and `canonicalise_text` is unconditionally
idempotent: a second scan of canonicalised text returns it unchanged and
reports no change. -/
theorem claim2_amended_idempotence (nfkc : List Char → List Char)
    (hnfkc : ∀ s, nfkc s = s) :
    (∀ T, crlf ((canonicalise_pointer nfkc T).1) =
        (canonicalise_pointer nfkc T).1 →
      canonicalise_pointer nfkc ((canonicalise_pointer nfkc T).1) =
        ((canonicalise_pointer nfkc T).1, false)) ∧
    (∀ s, canonicalise_text nfkc ((canonicalise_text nfkc s).1) =
      ((canonicalise_text nfkc s).1, false)) := by
  constructor
  · intro T hfix
    rcases cp_cases nfkc T with hc | ⟨p, r, hs, hp, hl⟩
    · rw [hc] at hfix ⊢
      exact hc
    · have hcp := cp_valid nfkc T p r hs hp hl
      have h1 : (canonicalise_pointer nfkc T).1 =
          '<' :: '@' :: (p.map pyLower ++ ':' :: (r ++ ['>'])) := by
        rw [hcp]
      rw [h1] at hfix ⊢
      have hsO : crlf (nfkc ('<' :: '@' ::
          (p.map pyLower ++ ':' :: (r ++ ['>'])))) =
          '<' :: '@' :: (p.map pyLower ++ ':' :: (r ++ ['>'])) := by
        rw [hnfkc]
        exact hfix
      have hlO : (crlf (nfkc ('<' :: '@' ::
          (p.map pyLower ++ ':' :: (r ++ ['>']))))).length ≤ 256 := by
        rw [hsO]
        have hle : ('<' :: '@' ::
            (p.map pyLower ++ ':' :: (r ++ ['>']))).length =
            (crlf (nfkc T)).length := by
          rw [hs]
          simp
        omega
      have hcpO := cp_valid nfkc _ (p.map pyLower) r hsO
        (map_pyLower_no_colon p hp) hlO
      rw [map_pyLower_idem] at hcpO
      rw [hcpO]
      simp
  · intro s
    by_cases hP : (findIter s).1.isEmpty = true
    · have hct : canonicalise_text nfkc s = (s, false) := by
        rw [canonicalise_text_eq, if_pos hP, if_pos hP]
      rw [hct]
      exact hct
    · have hrec : flattenPairs (findIter s).1 ++ (findIter s).2 = s :=
        findIterF_reconstruct s.length s le_rfl
      have hshape : ∀ gm ∈ (findIter s).1, matchShapeB gm.2 = true :=
        findIterF_shape s.length s le_rfl
      have hct : canonicalise_text nfkc s =
          (((findIter s).1.map fun gm =>
              gm.1 ++ (canonicalise_pointer nfkc gm.2).1).flatten ++
            (findIter s).2,
            (findIter s).1.any fun gm =>
              (canonicalise_pointer nfkc gm.2).2) := by
        rw [canonicalise_text_eq, if_neg hP, if_neg hP]
      have hUeq : flattenPairs ((findIter s).1.map fun gm =>
            (gm.1, (canonicalise_pointer nfkc gm.2).1)) =
          ((findIter s).1.map fun gm =>
            gm.1 ++ (canonicalise_pointer nfkc gm.2).1).flatten :=
        flattenPairs_map (fun gm => (canonicalise_pointer nfkc gm.2).1)
          (findIter s).1
      rw [hct]
      show canonicalise_text nfkc
          (((findIter s).1.map fun gm =>
            gm.1 ++ (canonicalise_pointer nfkc gm.2).1).flatten ++
            (findIter s).2) =
          ((((findIter s).1.map fun gm =>
            gm.1 ++ (canonicalise_pointer nfkc gm.2).1).flatten ++
            (findIter s).2), false)
      rw [← hUeq]
      have hf2su : List.Forall₂ CharEq s
          (flattenPairs ((findIter s).1.map fun gm =>
            (gm.1, (canonicalise_pointer nfkc gm.2).1)) ++
            (findIter s).2) := by
        have hbig : List.Forall₂ CharEq
            (flattenPairs (findIter s).1 ++ (findIter s).2)
            (flattenPairs ((findIter s).1.map fun gm =>
              (gm.1, (canonicalise_pointer nfkc gm.2).1)) ++
              (findIter s).2) :=
          List.rel_append
            (f2_flattenPairs (f2_map_self _
              (fun gm => (gm.1, (canonicalise_pointer nfkc gm.2).1))
              (findIter s).1
              (fun gm hgm => ⟨f2_refl _,
                (cp_match nfkc hnfkc gm.2 (hshape gm hgm)).1⟩)))
            (f2_refl (findIter s).2)
        rwa [hrec] at hbig
      obtain ⟨hrp, hrt⟩ := findIterF_resp s.length s
        (flattenPairs ((findIter s).1.map fun gm =>
          (gm.1, (canonicalise_pointer nfkc gm.2).1)) ++ (findIter s).2)
        hf2su
      have hrecW : flattenPairs (findIterF s.length
            (flattenPairs ((findIter s).1.map fun gm =>
              (gm.1, (canonicalise_pointer nfkc gm.2).1)) ++
              (findIter s).2)).1 ++
          (findIterF s.length
            (flattenPairs ((findIter s).1.map fun gm =>
              (gm.1, (canonicalise_pointer nfkc gm.2).1)) ++
              (findIter s).2)).2 =
          flattenPairs ((findIter s).1.map fun gm =>
            (gm.1, (canonicalise_pointer nfkc gm.2).1)) ++
            (findIter s).2 :=
        findIterF_reconstruct s.length _ (le_of_eq hf2su.length_eq.symm)
      have hlens : List.Forall₂ (fun p q => p.1.length = q.1.length ∧
          p.2.length = q.2.length)
          ((findIter s).1.map fun gm =>
            (gm.1, (canonicalise_pointer nfkc gm.2).1))
          (findIterF s.length
            (flattenPairs ((findIter s).1.map fun gm =>
              (gm.1, (canonicalise_pointer nfkc gm.2).1)) ++
              (findIter s).2)).1 :=
        f2_len_map _ hrp (fun p hp2 => ⟨rfl,
          ((cp_match nfkc hnfkc p.2 (hshape p hp2)).1.length_eq).symm⟩)
      obtain ⟨hQ, ht2⟩ := flattenPairs_inj hlens (findIter s).2
        (findIterF s.length
          (flattenPairs ((findIter s).1.map fun gm =>
            (gm.1, (canonicalise_pointer nfkc gm.2).1)) ++
            (findIter s).2)).2
        hrecW.symm
      have hfiW : findIter
          (flattenPairs ((findIter s).1.map fun gm =>
            (gm.1, (canonicalise_pointer nfkc gm.2).1)) ++
            (findIter s).2) =
          findIterF s.length
            (flattenPairs ((findIter s).1.map fun gm =>
              (gm.1, (canonicalise_pointer nfkc gm.2).1)) ++
              (findIter s).2) := by
        show findIterF
            (flattenPairs ((findIter s).1.map fun gm =>
              (gm.1, (canonicalise_pointer nfkc gm.2).1)) ++
              (findIter s).2).length
            (flattenPairs ((findIter s).1.map fun gm =>
              (gm.1, (canonicalise_pointer nfkc gm.2).1)) ++
              (findIter s).2) =
          findIterF s.length
            (flattenPairs ((findIter s).1.map fun gm =>
              (gm.1, (canonicalise_pointer nfkc gm.2).1)) ++
              (findIter s).2)
        rw [← hf2su.length_eq]
      have hme : (((findIter s).1.map fun gm =>
          (gm.1, (canonicalise_pointer nfkc gm.2).1)).isEmpty) = false := by
        cases hc : (findIter s).1 with
        | nil =>
          rw [hc] at hP
          exact absurd rfl hP
        | cons a as =>
          rfl
      have hmap : (((findIter s).1.map fun gm =>
          (gm.1, (canonicalise_pointer nfkc gm.2).1)).map fun gm =>
            gm.1 ++ (canonicalise_pointer nfkc gm.2).1) =
          (findIter s).1.map fun gm =>
            gm.1 ++ (canonicalise_pointer nfkc gm.2).1 := by
        rw [List.map_map]
        refine List.map_congr_left ?_
        intro gm hgm
        show gm.1 ++ (canonicalise_pointer nfkc
          ((canonicalise_pointer nfkc gm.2).1)).1 =
          gm.1 ++ (canonicalise_pointer nfkc gm.2).1
        rw [(cp_match nfkc hnfkc gm.2 (hshape gm hgm)).2]
      have hany : (((findIter s).1.map fun gm =>
          (gm.1, (canonicalise_pointer nfkc gm.2).1)).any fun gm =>
            (canonicalise_pointer nfkc gm.2).2) = false := by
        rw [List.any_eq_false]
        intro x hx
        obtain ⟨gm, hgm, rfl⟩ := List.mem_map.mp hx
        intro hcon
        have h2 : (canonicalise_pointer nfkc
            ((canonicalise_pointer nfkc gm.2).1)).2 = true := hcon
        rw [(cp_match nfkc hnfkc gm.2 (hshape gm hgm)).2] at h2
        cases h2
      rw [canonicalise_text_eq, hfiW, ← hQ, ← ht2,
        if_neg (by rw [hme]; exact fun hx => Bool.noConfusion hx),
        if_neg (by rw [hme]; exact fun hx => Bool.noConfusion hx),
        hmap, hany, hUeq]

theorem claim2_witness :
    canonicalise_pointer id
        ((canonicalise_pointer id "<@A:b>".toList).1) =
      ((canonicalise_pointer id "<@A:b>".toList).1, false) ∧
    canonicalise_text id
        ((canonicalise_text id "x <@A:b> y".toList).1) =
      ((canonicalise_text id "x <@A:b> y".toList).1, false) :=
  ⟨(claim2_amended_idempotence id (fun s => rfl)).1 "<@A:b>".toList
      (by decide),
    (claim2_amended_idempotence id (fun s => rfl)).2 "x <@A:b> y".toList⟩

end PointerMigration
